import Mathlib

/-!
Verification of the ThingTalk program optimizer subsystem.

This development embeds, in Lean, the data model and operations of the
ThingTalk optimizer subsystem: the AST statement/program classes and the
`parse` entry point of `lib/syntax_api.ts`, and the program optimizer
(`optimizeProgram` and the boolean/projection/monitor normalizers).
The optimizer module itself is not part of the available sources (only its
callers in `lib/syntax_api.ts` and its test inputs are), so the normalizer
definitions below are modelled from the specification document; each such
definition carries a doc comment starting with `Modelled from the spec:`.
Definitions taken from `lib/syntax_api.ts` directly cite that file.

Naming notes forced by Lean: the AST `BooleanExpression.True` / `False`
constructors are called `btrue` / `bfalse` here (Lean reserves the words),
and the source `=~` operator is called `like`; `in_array` / `in_array~`
are `inArray` / `inArrayLike`.
-/

namespace ThingTalk

/--
Scalar value AST nodes (the operand positions of filter atoms).
Modelled from the spec: the expression model keeps, for every
numeric/string literal, its exact source text (`text`), which every rewrite
must preserve verbatim (no re-rounding, no reformatting).  A literal
constant additionally carries an optional numeric magnitude (in canonical
units) used only for constant folding of ordering comparisons.
`computed` is a non-trivial (function-call/computed) expression;
`array` is the list value produced by merging equality disjunctions.
-/
inductive Value where
  | varRef (name : String)
  | const (text : String) (num : Option Int)
  | computed (fn : String) (args : List Value)
  | array (elems : List Value)
deriving Repr

mutual

/-- Structural (syntactic) equality test on values, used by the reflexive
elimination rule ("operands syntactically identical"). -/
def Value.beq : Value → Value → Bool
  | .varRef a, .varRef b => decide (a = b)
  | .const t n, .const t' n' => decide (t = t') && decide (n = n')
  | .computed f as, .computed g bs => decide (f = g) && Value.beqList as bs
  | .array as, .array bs => Value.beqList as bs
  | _, _ => false

/-- Pointwise structural equality on value lists. -/
def Value.beqList : List Value → List Value → Bool
  | [], [] => true
  | a :: as, b :: bs => Value.beq a b && Value.beqList as bs
  | _, _ => false

end

/-- Induction principle for `Value` that handles the nested lists. -/
theorem Value.valueInduction (motive : Value → Prop)
    (hvar : ∀ n, motive (.varRef n))
    (hconst : ∀ t n, motive (.const t n))
    (hcomp : ∀ f as, (∀ v ∈ as, motive v) → motive (.computed f as))
    (harr : ∀ as, (∀ v ∈ as, motive v) → motive (.array as)) :
    ∀ v, motive v :=
  @Value.rec motive (fun l => ∀ v ∈ l, motive v)
    hvar hconst hcomp harr
    (fun v h => absurd h (List.not_mem_nil v))
    (fun _ _ iha ihas v h => by
      cases h with
      | head => exact iha
      | tail _ h => exact ihas v h)

/-- Soundness and completeness of `Value.beq`. -/
theorem Value.beq_iff : ∀ a b : Value, Value.beq a b = true ↔ a = b := by
  intro a
  induction a using Value.valueInduction with
  | hvar n => intro b; cases b <;> simp [Value.beq]
  | hconst t n => intro b; cases b <;> simp [Value.beq]
  | hcomp f as ih =>
      intro b
      cases b <;> simp only [Value.beq, Bool.and_eq_true, decide_eq_true_eq,
        Value.computed.injEq, reduceCtorEq, iff_false]
      case computed g bs =>
        constructor
        · rintro ⟨h1, h2⟩
          refine ⟨h1, ?_⟩
          clear h1
          induction as generalizing bs with
          | nil => cases bs <;> simp_all [Value.beqList]
          | cons a as ihl =>
              cases bs with
              | nil => simp [Value.beqList] at h2
              | cons b bs =>
                  simp only [Value.beqList, Bool.and_eq_true] at h2
                  simp only [List.cons.injEq]
                  exact ⟨(ih a (by simp) b).1 h2.1,
                    ihl (fun v hv => ih v (by simp [hv])) bs h2.2⟩
        · rintro ⟨h1, h2⟩
          subst h1; subst h2
          refine ⟨rfl, ?_⟩
          induction as with
          | nil => simp [Value.beqList]
          | cons a as ihl =>
              simp only [Value.beqList, Bool.and_eq_true]
              exact ⟨(ih a (by simp) a).2 rfl,
                ihl (fun v hv => ih v (by simp [hv]))⟩
  | harr as ih =>
      intro b
      cases b <;> simp only [Value.beq, Value.array.injEq, reduceCtorEq, iff_false]
      case array bs =>
        constructor
        · intro h2
          induction as generalizing bs with
          | nil => cases bs <;> simp_all [Value.beqList]
          | cons a as ihl =>
              cases bs with
              | nil => simp [Value.beqList] at h2
              | cons b bs =>
                  simp only [Value.beqList, Bool.and_eq_true] at h2
                  simp only [List.cons.injEq]
                  exact ⟨(ih a (by simp) b).1 h2.1,
                    ihl (fun v hv => ih v (by simp [hv])) bs h2.2⟩
        · intro h2
          subst h2
          induction as with
          | nil => simp [Value.beqList]
          | cons a as ihl =>
              simp only [Value.beqList, Bool.and_eq_true]
              exact ⟨(ih a (by simp) a).2 rfl,
                ihl (fun v hv => ih v (by simp [hv]))⟩

instance : DecidableEq Value := fun a b =>
  decidable_of_iff (Value.beq a b = true) (Value.beq_iff a b)

mutual

/-- Deterministic rendering of a value back to source text.  A literal
constant renders as its recorded exact source text. -/
def Value.render : Value → String
  | .varRef n => n
  | .const t _ => t
  | .computed f as => f ++ "(" ++ Value.renderList as ++ ")"
  | .array as => "[" ++ Value.renderList as ++ "]"

/-- Comma-joined rendering of a value list. -/
def Value.renderList : List Value → String
  | [] => ""
  | [v] => Value.render v
  | v :: vs => Value.render v ++ ", " ++ Value.renderList vs

end

mutual

/-- Exact source texts of all literal constants occurring in a value. -/
def Value.litTexts : Value → List String
  | .varRef _ => []
  | .const t _ => [t]
  | .computed _ as => Value.litTextsList as
  | .array as => Value.litTextsList as

/-- Literal texts of all values in a list. -/
def Value.litTextsList : List Value → List String
  | [] => []
  | v :: vs => Value.litTexts v ++ Value.litTextsList vs

end

mutual

/-- Field (parameter) names referenced by a value, i.e. its variable
references; used to decide whether a filter can be relocated below a
projection. -/
def Value.varNames : Value → List String
  | .varRef n => [n]
  | .const _ _ => []
  | .computed _ as => Value.varNamesList as
  | .array as => Value.varNamesList as

/-- Variable names of all values in a list. -/
def Value.varNamesList : List Value → List String
  | [] => []
  | v :: vs => Value.varNames v ++ Value.varNamesList vs

end

/-- Whether a value is a literal/contextual constant. -/
def Value.isConst : Value → Bool
  | .const _ _ => true
  | _ => false

/-- Whether a value is a non-trivial (function-call/computed) expression. -/
def Value.isComputed : Value → Bool
  | .computed _ _ => true
  | _ => false

/--
Comparison operators of filter atoms.  `like` is the source operator `=~`;
`inArray` / `inArrayLike` are `in_array` / `in_array~`, the exact and
approximate membership predicates produced by merging equality
disjunctions.
-/
inductive CompOp where
  | eq
  | neq
  | lt
  | le
  | gt
  | ge
  | like
  | inArray
  | inArrayLike
deriving DecidableEq, Repr

/-- Rendered source text of an operator. -/
def CompOp.render : CompOp → String
  | .eq => "=="
  | .neq => "!="
  | .lt => "<"
  | .le => "<="
  | .gt => ">"
  | .ge => ">="
  | .like => "=~"
  | .inArray => "in_array"
  | .inArrayLike => "in_array~"

/-- Modelled from the spec: operand swap flips ordering operators
(`>=` becomes `<=`, `>` becomes `<`, and conversely). -/
def CompOp.flipOp : CompOp → CompOp
  | .ge => .le
  | .gt => .lt
  | .le => .ge
  | .lt => .gt
  | o => o

/-- Whether the operator is an ordering comparison. -/
def CompOp.isOrdering : CompOp → Bool
  | .lt => true
  | .le => true
  | .gt => true
  | .ge => true
  | _ => false

/-- Modelled from the spec: the operators that are reflexive under
equality (`==`, `>=`, `<=`), for which an atom with syntactically
identical operands reduces to True. -/
def CompOp.isReflexiveTrue : CompOp → Bool
  | .eq => true
  | .ge => true
  | .le => true
  | _ => false

/-- Modelled from the spec: the membership operator a run of equality
atoms merges to (`==` merges to `in_array`, `=~` to `in_array~`);
`none` for every other operator. -/
def CompOp.memberOp : CompOp → Option CompOp
  | .eq => some .inArray
  | .like => some .inArrayLike
  | _ => none

/-- Canonical-ordering class of an operator: `==` shares a class with the
`in_array` it merges to, and `=~` with `in_array~`, so that a merged
membership atom sorts exactly where its source run sorted. -/
def CompOp.opClass : CompOp → Nat
  | .eq => 0
  | .inArray => 0
  | .like => 1
  | .inArrayLike => 1
  | .neq => 2
  | .lt => 3
  | .le => 4
  | .gt => 5
  | .ge => 6

/--
Modelled from the spec: evaluation of a comparison between two literal
constants at normalization time.  Equality and inequality compare the
constants structurally; ordering comparisons are decided when both
constants carry a numeric magnitude, and are left undecided (`none`)
otherwise.  Membership operators are never folded.
-/
def evalComp (l : ThingTalk.Value) (op : CompOp) (r : ThingTalk.Value) : Option Bool :=
  match op with
  | .eq => some (decide (l = r))
  | .neq => some (!(decide (l = r)))
  | .lt =>
      match l, r with
      | .const _ (some a), .const _ (some b) => some (decide (a < b))
      | _, _ => none
  | .le =>
      match l, r with
      | .const _ (some a), .const _ (some b) => some (decide (a ≤ b))
      | _, _ => none
  | .gt =>
      match l, r with
      | .const _ (some a), .const _ (some b) => some (decide (b < a))
      | _, _ => none
  | .ge =>
      match l, r with
      | .const _ (some a), .const _ (some b) => some (decide (b ≤ a))
      | _, _ => none
  | _ => none

/--
Filter predicate AST (the source `BooleanExpression`): `atom` with a left
operand, operator and right operand; n-ary `and` / `or` with an ordered
operand sequence; negation; and the constants `btrue` / `bfalse` (the
source `BooleanExpression.True` / `False`).
-/
inductive BoolExpr where
  | atom (lhs : ThingTalk.Value) (op : CompOp) (rhs : ThingTalk.Value)
  | and (operands : List BoolExpr)
  | or (operands : List BoolExpr)
  | not (e : BoolExpr)
  | btrue
  | bfalse
deriving Repr

/-- Whether the expression is the constant True. -/
def BoolExpr.isTrueB : BoolExpr → Bool
  | .btrue => true
  | _ => false

/-- Whether the expression is the constant False. -/
def BoolExpr.isFalseB : BoolExpr → Bool
  | .bfalse => true
  | _ => false

/-- Whether the expression is one of the two boolean constants. -/
def BoolExpr.isConstB : BoolExpr → Bool
  | .btrue => true
  | .bfalse => true
  | _ => false

/-- Whether the expression is an `and` node. -/
def BoolExpr.isAndB : BoolExpr → Bool
  | .and _ => true
  | _ => false

/-- Whether the expression is an `or` node. -/
def BoolExpr.isOrB : BoolExpr → Bool
  | .or _ => true
  | _ => false

/-- Whether the expression is a `not` node. -/
def BoolExpr.isNotB : BoolExpr → Bool
  | .not _ => true
  | _ => false

mutual

/--
Modelled from the spec: the deterministic canonical-ordering key over
expression shape used to sort the operands of a flattened `and` / `or`
(the exact key is implementation-defined by the spec; this one renders the
shape, keying an atom by its left operand and operator class only, so that
operands merged into a membership atom keep their position and their
original relative order under the stable sort).
-/
def BoolExpr.bKey : BoolExpr → String
  | .atom l op _ => "A(" ++ ThingTalk.Value.render l ++ "," ++ Nat.repr (CompOp.opClass op) ++ ")"
  | .and ops => "C(" ++ BoolExpr.bKeyList ops ++ ")"
  | .or ops => "D(" ++ BoolExpr.bKeyList ops ++ ")"
  | .not e => "N(" ++ BoolExpr.bKey e ++ ")"
  | .btrue => "T"
  | .bfalse => "F"

/-- Keys of an operand list, joined. -/
def BoolExpr.bKeyList : List BoolExpr → String
  | [] => ""
  | [e] => BoolExpr.bKey e
  | e :: es => BoolExpr.bKey e ++ ";" ++ BoolExpr.bKeyList es

end

/-- Lexicographic comparison of character lists by code point (computable
all the way down, used as the deterministic total order on keys). -/
def lexLeB : List Char → List Char → Bool
  | [], _ => true
  | _ :: _, [] => false
  | a :: as, b :: bs =>
      if a.toNat < b.toNat then true
      else if b.toNat < a.toNat then false
      else lexLeB as bs

/-- Totality of the lexicographic comparison. -/
theorem lexLeB_total : ∀ x y : List Char, lexLeB x y = true ∨ lexLeB y x = true := by
  intro x
  induction x with
  | nil => intro y; left; simp [lexLeB]
  | cons a as ih =>
      intro y
      cases y with
      | nil => right; simp [lexLeB]
      | cons b bs =>
          by_cases hab : a.toNat < b.toNat
          · left; simp [lexLeB, hab]
          · by_cases hba : b.toNat < a.toNat
            · right; simp [lexLeB, hba]
            · rcases ih bs with h | h
              · left; simp [lexLeB, hab, hba, h]
              · right; simp [lexLeB, hab, hba, h]

/-- Helper: unfolding of `lexLeB` on cons cells. -/
theorem lexLeB_cons (a b : Char) (as bs : List Char) :
    lexLeB (a :: as) (b :: bs) =
      (if a.toNat < b.toNat then true
       else if b.toNat < a.toNat then false
       else lexLeB as bs) := rfl

/-- Transitivity of the lexicographic comparison. -/
theorem lexLeB_trans :
    ∀ x y z : List Char, lexLeB x y = true → lexLeB y z = true → lexLeB x z = true := by
  intro x
  induction x with
  | nil => intro y z _ _; simp [lexLeB]
  | cons a as ih =>
      intro y z hxy hyz
      cases y with
      | nil => simp [lexLeB] at hxy
      | cons b bs =>
          cases z with
          | nil => simp [lexLeB] at hyz
          | cons c cs =>
              rw [lexLeB_cons] at hxy hyz ⊢
              by_cases hab : a.toNat < b.toNat
              · rw [if_pos hab] at hxy
                by_cases hbc : b.toNat < c.toNat
                · rw [if_pos (show a.toNat < c.toNat by omega)]
                · rw [if_neg hbc] at hyz
                  by_cases hcb : c.toNat < b.toNat
                  · rw [if_pos hcb] at hyz; exact absurd hyz (by simp)
                  · rw [if_neg hcb] at hyz
                    rw [if_pos (show a.toNat < c.toNat by omega)]
              · rw [if_neg hab] at hxy
                by_cases hba : b.toNat < a.toNat
                · rw [if_pos hba] at hxy; exact absurd hxy (by simp)
                · rw [if_neg hba] at hxy
                  by_cases hbc : b.toNat < c.toNat
                  · rw [if_pos (show a.toNat < c.toNat by omega)]
                  · rw [if_neg hbc] at hyz
                    by_cases hcb : c.toNat < b.toNat
                    · rw [if_pos hcb] at hyz; exact absurd hyz (by simp)
                    · rw [if_neg hcb] at hyz
                      rw [if_neg (show ¬ a.toNat < c.toNat by omega),
                        if_neg (show ¬ c.toNat < a.toNat by omega)]
                      exact ih bs cs hxy hyz

/-- Canonical operand order: lexicographic comparison of ordering keys. -/
def bLE (a b : BoolExpr) : Prop :=
  lexLeB (BoolExpr.bKey a).data (BoolExpr.bKey b).data = true

instance : DecidableRel bLE := fun a b =>
  inferInstanceAs (Decidable (lexLeB (BoolExpr.bKey a).data (BoolExpr.bKey b).data = true))

instance : IsTotal BoolExpr bLE :=
  ⟨fun a b => lexLeB_total (BoolExpr.bKey a).data (BoolExpr.bKey b).data⟩

instance : IsTrans BoolExpr bLE :=
  ⟨fun a b c h1 h2 =>
    lexLeB_trans (BoolExpr.bKey a).data (BoolExpr.bKey b).data (BoolExpr.bKey c).data h1 h2⟩

/-- Whether an operand list is in canonical order. -/
def sortedB (l : List BoolExpr) : Bool := decide (List.Pairwise bLE l)

/-- Modelled from the spec: stable sort of a flattened operand list by the
canonical deterministic order. -/
def sortOps (l : List BoolExpr) : List BoolExpr := List.insertionSort bLE l

/-- Modelled from the spec: one-level flattening of `and`-in-`and`
(nested conjunctions collapse to one level). -/
def flattenAnd : List BoolExpr → List BoolExpr
  | [] => []
  | .and inner :: rest => inner ++ flattenAnd rest
  | x :: rest => x :: flattenAnd rest

/-- Modelled from the spec: one-level flattening of `or`-in-`or`
(nested disjunctions collapse to one level). -/
def flattenOr : List BoolExpr → List BoolExpr
  | [] => []
  | .or inner :: rest => inner ++ flattenOr rest
  | x :: rest => x :: flattenOr rest

/-- Modelled from the spec: the atom a pending run flushes to.  A run of
one atom is passed through unchanged; a run of two or more atoms sharing
the left operand and an equality-class operator becomes one membership
atom whose right operand lists the original right operands in their
original left-to-right appearance order. -/
def flushRun (l : ThingTalk.Value) (op : CompOp) (r : ThingTalk.Value)
    (acc : List ThingTalk.Value) : BoolExpr :=
  match acc with
  | [] => .atom l op r
  | _ => .atom l ((CompOp.memberOp op).getD op) (.array (r :: acc))

mutual

/-- Modelled from the spec: disjunction-to-membership merging.  Within a
flattened `or` operand list, each maximal run of two or more adjacent
atoms sharing the same left operand and the same equality-class operator
(`==` or `=~`) is replaced by one membership atom; all other operands pass
through unchanged. -/
def mergeRuns : List BoolExpr → List BoolExpr
  | [] => []
  | x :: rest =>
      match x with
      | .atom l op r =>
          if (CompOp.memberOp op).isSome then mergeRunsAux l op r [] rest
          else .atom l op r :: mergeRuns rest
      | _ => x :: mergeRuns rest

/-- Run accumulator for `mergeRuns`: `l`, `op`, `r` are the head atom of
the current run and `acc` the right operands collected after it. -/
def mergeRunsAux (l : ThingTalk.Value) (op : CompOp) (r : ThingTalk.Value)
    (acc : List ThingTalk.Value) : List BoolExpr → List BoolExpr
  | [] => [flushRun l op r acc]
  | x :: rest =>
      match x with
      | .atom l2 op2 r2 =>
          if l2 = l ∧ op2 = op then mergeRunsAux l op r (acc ++ [r2]) rest
          else
            flushRun l op r acc ::
              (if (CompOp.memberOp op2).isSome then mergeRunsAux l2 op2 r2 [] rest
               else .atom l2 op2 r2 :: mergeRuns rest)
      | _ => flushRun l op r acc :: x :: mergeRuns rest

end

/-- Whether `b` would extend a merge run started by `a`: both are atoms
with the same left operand and the same mergeable equality-class
operator. -/
def runPairB (a b : BoolExpr) : Bool :=
  match a, b with
  | .atom l op _, .atom l2 op2 _ =>
      (CompOp.memberOp op).isSome && decide (l2 = l) && decide (op2 = op)
  | _, _ => false

/-- Whether no adjacent pair of operands forms a mergeable run. -/
def noRunsB : List BoolExpr → Bool
  | a :: b :: t => !(runPairB a b) && noRunsB (b :: t)
  | _ => true

/-- Modelled from the spec: normalization of one atom, applying in
priority order reflexive elimination (rule 1), constant folding (rule 2)
and comparison canonicalization (rule 3: a literal/contextual constant on
the left of an ordering operator with a non-trivial computed expression on
the right is swapped to the right, flipping the operator). -/
def normalizeAtom (l : ThingTalk.Value) (op : CompOp) (r : ThingTalk.Value) : BoolExpr :=
  if op.isReflexiveTrue && decide (l = r) then .btrue
  else if l.isConst && r.isConst then
    match evalComp l op r with
    | some true => .btrue
    | some false => .bfalse
    | none => .atom l op r
  else if op.isOrdering && l.isConst && r.isComputed then .atom r op.flipOp l
  else .atom l op r

/-- Modelled from the spec: reconstruction of a conjunction from the
normalized operand list — flatten nested `and`s, absorb on a False
operand, drop True operands, sort canonically, and collapse an empty or
singleton conjunction. -/
def mkAnd (ns : List BoolExpr) : BoolExpr :=
  if (flattenAnd ns).any BoolExpr.isFalseB then .bfalse
  else
    match sortOps ((flattenAnd ns).filter (fun x => !(BoolExpr.isTrueB x))) with
    | [] => .btrue
    | [x] => x
    | xs => .and xs

/-- Modelled from the spec: reconstruction of a disjunction from the
normalized operand list — flatten nested `or`s, absorb on a True operand,
drop False operands, sort canonically, merge equality runs to membership
atoms, and collapse an empty or singleton disjunction. -/
def mkOr (ns : List BoolExpr) : BoolExpr :=
  if (flattenOr ns).any BoolExpr.isTrueB then .btrue
  else
    match mergeRuns (sortOps ((flattenOr ns).filter (fun x => !(BoolExpr.isFalseB x)))) with
    | [] => .bfalse
    | [x] => x
    | xs => .or xs

mutual

/-- Modelled from the spec: the boolean expression normalizer
`normalize(expr)`: pure, applied bottom-up, iterating the rule families
(reflexive elimination, constant folding, comparison canonicalization,
disjunction-to-membership, associative flattening, short-circuit collapse,
canonical ordering) to a local fixed point at every node.  Double negation
collapses. -/
def normalize : BoolExpr → BoolExpr
  | .atom l op r => normalizeAtom l op r
  | .and ops => mkAnd (normList ops)
  | .or ops => mkOr (normList ops)
  | .not e =>
      match normalize e with
      | .not x => x
      | e2 => .not e2
  | .btrue => .btrue
  | .bfalse => .bfalse

/-- Pointwise normalization of an operand list. -/
def normList : List BoolExpr → List BoolExpr
  | [] => []
  | x :: xs => normalize x :: normList xs

end

/-- Whether an atom is untouched by all three atom rules (reflexive
elimination, constant folding, comparison canonicalization). -/
def atomNF (l : ThingTalk.Value) (op : CompOp) (r : ThingTalk.Value) : Bool :=
  !(op.isReflexiveTrue && decide (l = r)) &&
  !(l.isConst && r.isConst && (evalComp l op r).isSome) &&
  !(op.isOrdering && l.isConst && r.isComputed)

mutual

/-- Normal forms of the boolean normalizer: every rewrite rule is at a
fixed point.  `and` / `or` operand lists are flat, constant-free, sorted,
at least binary, and (for `or`) contain no mergeable run. -/
def isNF : BoolExpr → Bool
  | .atom l op r => atomNF l op r
  | .and ops =>
      decide (2 ≤ ops.length) && allNF ops &&
      ops.all (fun x => !(BoolExpr.isAndB x) && !(BoolExpr.isConstB x)) &&
      sortedB ops
  | .or ops =>
      decide (2 ≤ ops.length) && allNF ops &&
      ops.all (fun x => !(BoolExpr.isOrB x) && !(BoolExpr.isConstB x)) &&
      sortedB ops && noRunsB ops
  | .not e => isNF e && !(BoolExpr.isNotB e)
  | .btrue => true
  | .bfalse => true

/-- All members of an operand list are in normal form. -/
def allNF : List BoolExpr → Bool
  | [] => true
  | x :: xs => isNF x && allNF xs

end

/-- Induction principle for `BoolExpr` that handles the nested operand
lists. -/
theorem BoolExpr.bexprInduction (motive : BoolExpr → Prop)
    (hatom : ∀ l op r, motive (.atom l op r))
    (hand : ∀ ops, (∀ x ∈ ops, motive x) → motive (.and ops))
    (hor : ∀ ops, (∀ x ∈ ops, motive x) → motive (.or ops))
    (hnot : ∀ e, motive e → motive (.not e))
    (htrue : motive .btrue)
    (hfalse : motive .bfalse) :
    ∀ e, motive e :=
  @BoolExpr.rec motive (fun l => ∀ x ∈ l, motive x)
    hatom hand hor hnot htrue hfalse
    (fun x h => absurd h (List.not_mem_nil x))
    (fun _ _ iha ihas x h => by
      cases h with
      | head => exact iha
      | tail _ h => exact ihas x h)

/-- Membership in an operand list is reflected by `allNF`. -/
theorem allNF_iff (l : List BoolExpr) :
    allNF l = true ↔ ∀ x ∈ l, isNF x = true := by
  induction l with
  | nil => simp [allNF]
  | cons a as ih => simp [allNF, ih]

/-- Characterization of canonical sortedness. -/
theorem sortedB_iff (l : List BoolExpr) :
    sortedB l = true ↔ List.Pairwise bLE l := by
  simp [sortedB]

/-- The canonical sort permutes its input. -/
theorem sortOps_perm (l : List BoolExpr) : List.Perm (sortOps l) l :=
  List.perm_insertionSort bLE l

/-- The canonical sort sorts. -/
theorem sortOps_sorted (l : List BoolExpr) : List.Pairwise bLE (sortOps l) :=
  List.sorted_insertionSort bLE l

/-- A list already in canonical order is untouched by the sort. -/
theorem sortOps_eq_self {l : List BoolExpr} (h : List.Pairwise bLE l) :
    sortOps l = l :=
  List.Sorted.insertionSort_eq h

/-- Flattening a list headed by a non-`and` member keeps the head. -/
theorem flattenAnd_cons_of_not_and {x : BoolExpr} (hx : BoolExpr.isAndB x = false)
    (rest : List BoolExpr) : flattenAnd (x :: rest) = x :: flattenAnd rest := by
  cases x <;> simp_all [flattenAnd, BoolExpr.isAndB]

/-- Flattening a list headed by a non-`or` member keeps the head. -/
theorem flattenOr_cons_of_not_or {x : BoolExpr} (hx : BoolExpr.isOrB x = false)
    (rest : List BoolExpr) : flattenOr (x :: rest) = x :: flattenOr rest := by
  cases x <;> simp_all [flattenOr, BoolExpr.isOrB]

/-- Members of a flattened conjunction list come from the list itself
(non-`and` members) or from the operand list of an `and` member. -/
theorem mem_flattenAnd {ns : List BoolExpr} {y : BoolExpr} (h : y ∈ flattenAnd ns) :
    (y ∈ ns ∧ BoolExpr.isAndB y = false) ∨
      ∃ ops, BoolExpr.and ops ∈ ns ∧ y ∈ ops := by
  induction ns with
  | nil => simp [flattenAnd] at h
  | cons x rest ih =>
      by_cases hx : BoolExpr.isAndB x = true
      · obtain ⟨inner, rfl⟩ : ∃ inner, x = BoolExpr.and inner := by
          cases x <;> simp_all [BoolExpr.isAndB]
        simp only [flattenAnd, List.mem_append] at h
        rcases h with h | h
        · exact Or.inr ⟨inner, by simp, h⟩
        · rcases ih h with ⟨h1, h2⟩ | ⟨ops, h1, h2⟩
          · exact Or.inl ⟨List.mem_cons_of_mem _ h1, h2⟩
          · exact Or.inr ⟨ops, List.mem_cons_of_mem _ h1, h2⟩
      · have hx' : BoolExpr.isAndB x = false := by simp_all
        rw [flattenAnd_cons_of_not_and hx'] at h
        rcases List.mem_cons.mp h with rfl | h
        · exact Or.inl ⟨List.mem_cons_self _ _, hx'⟩
        · rcases ih h with ⟨h1, h2⟩ | ⟨ops, h1, h2⟩
          · exact Or.inl ⟨List.mem_cons_of_mem _ h1, h2⟩
          · exact Or.inr ⟨ops, List.mem_cons_of_mem _ h1, h2⟩

/-- A conjunction list with no `and` members flattens to itself. -/
theorem flattenAnd_eq_self {ns : List BoolExpr}
    (h : ∀ x ∈ ns, BoolExpr.isAndB x = false) : flattenAnd ns = ns := by
  induction ns with
  | nil => rfl
  | cons x rest ih =>
      rw [flattenAnd_cons_of_not_and (h x (List.mem_cons_self _ _))]
      rw [ih (fun y hy => h y (List.mem_cons_of_mem _ hy))]

/-- Members of a flattened disjunction list come from the list itself
(non-`or` members) or from the operand list of an `or` member. -/
theorem mem_flattenOr {ns : List BoolExpr} {y : BoolExpr} (h : y ∈ flattenOr ns) :
    (y ∈ ns ∧ BoolExpr.isOrB y = false) ∨
      ∃ ops, BoolExpr.or ops ∈ ns ∧ y ∈ ops := by
  induction ns with
  | nil => simp [flattenOr] at h
  | cons x rest ih =>
      by_cases hx : BoolExpr.isOrB x = true
      · obtain ⟨inner, rfl⟩ : ∃ inner, x = BoolExpr.or inner := by
          cases x <;> simp_all [BoolExpr.isOrB]
        simp only [flattenOr, List.mem_append] at h
        rcases h with h | h
        · exact Or.inr ⟨inner, by simp, h⟩
        · rcases ih h with ⟨h1, h2⟩ | ⟨ops, h1, h2⟩
          · exact Or.inl ⟨List.mem_cons_of_mem _ h1, h2⟩
          · exact Or.inr ⟨ops, List.mem_cons_of_mem _ h1, h2⟩
      · have hx' : BoolExpr.isOrB x = false := by simp_all
        rw [flattenOr_cons_of_not_or hx'] at h
        rcases List.mem_cons.mp h with rfl | h
        · exact Or.inl ⟨List.mem_cons_self _ _, hx'⟩
        · rcases ih h with ⟨h1, h2⟩ | ⟨ops, h1, h2⟩
          · exact Or.inl ⟨List.mem_cons_of_mem _ h1, h2⟩
          · exact Or.inr ⟨ops, List.mem_cons_of_mem _ h1, h2⟩

/-- A disjunction list with no `or` members flattens to itself. -/
theorem flattenOr_eq_self {ns : List BoolExpr}
    (h : ∀ x ∈ ns, BoolExpr.isOrB x = false) : flattenOr ns = ns := by
  induction ns with
  | nil => rfl
  | cons x rest ih =>
      rw [flattenOr_cons_of_not_or (h x (List.mem_cons_self _ _))]
      rw [ih (fun y hy => h y (List.mem_cons_of_mem _ hy))]

/-- Unfolding equation: merging the empty list. -/
theorem mergeRuns_nil : mergeRuns [] = [] := rfl

/-- Unfolding equation: a mergeable atom starts a run. -/
theorem mergeRuns_cons_mergeable {op : CompOp} (h : (CompOp.memberOp op).isSome = true)
    (l : Value) (r : Value) (rest : List BoolExpr) :
    mergeRuns (.atom l op r :: rest) = mergeRunsAux l op r [] rest := by
  simp [mergeRuns, h]

/-- Unfolding equation: a non-mergeable atom passes through. -/
theorem mergeRuns_cons_not_mergeable {op : CompOp} (h : (CompOp.memberOp op).isSome = false)
    (l : Value) (r : Value) (rest : List BoolExpr) :
    mergeRuns (.atom l op r :: rest) = .atom l op r :: mergeRuns rest := by
  simp [mergeRuns, h]

/-- Unfolding equation: a non-atom operand passes through. -/
theorem mergeRuns_cons_not_atom {x : BoolExpr} (h : ∀ l op r, x ≠ .atom l op r)
    (rest : List BoolExpr) :
    mergeRuns (x :: rest) = x :: mergeRuns rest := by
  cases x with
  | atom l op r => exact absurd rfl (h l op r)
  | _ => rfl

/-- Unfolding equation: flushing at the end of the list. -/
theorem mergeRunsAux_nil (l : Value) (op : CompOp) (r : Value) (acc : List Value) :
    mergeRunsAux l op r acc [] = [flushRun l op r acc] := rfl

/-- Unfolding equation: an atom with the same left operand and operator
joins the pending run. -/
theorem mergeRunsAux_cons_join {l l2 : Value} {op op2 : CompOp} {r2 : Value}
    (hl : l2 = l) (ho : op2 = op) (r : Value) (acc : List Value) (rest : List BoolExpr) :
    mergeRunsAux l op r acc (.atom l2 op2 r2 :: rest) =
      mergeRunsAux l op r (acc ++ [r2]) rest := by
  simp [mergeRunsAux, hl, ho]

/-- Unfolding equation: an atom that does not join flushes the pending
run and is processed like a fresh head. -/
theorem mergeRunsAux_cons_nojoin {l l2 : Value} {op op2 : CompOp} {r2 : Value}
    (hj : ¬(l2 = l ∧ op2 = op)) (r : Value) (acc : List Value) (rest : List BoolExpr) :
    mergeRunsAux l op r acc (.atom l2 op2 r2 :: rest) =
      flushRun l op r acc ::
        (if (CompOp.memberOp op2).isSome then mergeRunsAux l2 op2 r2 [] rest
         else .atom l2 op2 r2 :: mergeRuns rest) := by
  simp only [mergeRunsAux]
  rw [if_neg hj]

/-- Unfolding equation: a non-atom operand flushes the pending run. -/
theorem mergeRunsAux_cons_not_atom {x : BoolExpr} (h : ∀ l op r, x ≠ .atom l op r)
    (l : Value) (op : CompOp) (r : Value) (acc : List Value) (rest : List BoolExpr) :
    mergeRunsAux l op r acc (x :: rest) =
      flushRun l op r acc :: x :: mergeRuns rest := by
  cases x with
  | atom l2 op2 r2 => exact absurd rfl (h l2 op2 r2)
  | _ => rfl

/-- Unfolding equation: flushing an empty accumulator is the original atom. -/
theorem flushRun_nil_eq (l : Value) (op : CompOp) (r : Value) :
    flushRun l op r [] = .atom l op r := rfl

/-- Unfolding equation: flushing a non-empty accumulator builds the
membership atom over the collected right operands. -/
theorem flushRun_cons_eq (l : Value) (op : CompOp) (r a : Value) (as : List Value) :
    flushRun l op r (a :: as) =
      .atom l ((CompOp.memberOp op).getD op) (.array (r :: a :: as)) := rfl

/-- The membership atoms have untouched-by-all-rules left/right shape. -/
theorem atomNF_member {op2 : CompOp} (h : CompOp.memberOp op2 = none → False)
    (l rhs : Value) : atomNF l ((CompOp.memberOp op2).getD op2) rhs = true := by
  cases op2 <;> simp_all [CompOp.memberOp, atomNF, CompOp.isReflexiveTrue, evalComp,
    CompOp.isOrdering]

/-- Flushing preserves the ordering key of the run head. -/
theorem bKey_flushRun {op : CompOp} (h : (CompOp.memberOp op).isSome = true)
    (l r : Value) (acc : List Value) :
    BoolExpr.bKey (flushRun l op r acc) = BoolExpr.bKey (.atom l op r) := by
  cases acc with
  | nil => rfl
  | cons a as =>
      cases op <;> simp_all [CompOp.memberOp, flushRun, BoolExpr.bKey, CompOp.opClass]

/-- Flushed runs are atoms with the run head left operand, carrying either
the original operator or its membership operator. -/
theorem flushRun_shape (l : Value) (op : CompOp) (r : Value) (acc : List Value) :
    ∃ op2 rhs, flushRun l op r acc = .atom l op2 rhs ∧
      (op2 = op ∨ op2 = (CompOp.memberOp op).getD op) := by
  cases acc with
  | nil => exact ⟨op, r, rfl, Or.inl rfl⟩
  | cons a as => exact ⟨(CompOp.memberOp op).getD op, _, rfl, Or.inr rfl⟩

/-- Flushing preserves normal form. -/
theorem isNF_flushRun {l : Value} {op : CompOp} {r : Value}
    (hnf : isNF (.atom l op r) = true) (h : (CompOp.memberOp op).isSome = true)
    (acc : List Value) : isNF (flushRun l op r acc) = true := by
  cases acc with
  | nil => exact hnf
  | cons a as =>
      show isNF (.atom l ((CompOp.memberOp op).getD op) (.array (r :: a :: as))) = true
      have : atomNF l ((CompOp.memberOp op).getD op) (.array (r :: a :: as)) = true := by
        refine atomNF_member ?_ l _
        intro hc
        rw [hc] at h
        simp at h
      exact this

/-- Head shape of the run accumulator: the first emitted operand is an
atom with the pending left operand and (possibly merged) operator. -/
theorem mergeRunsAux_head (l : Value) (op : CompOp) (r : Value) :
    ∀ (rest : List BoolExpr) (acc : List Value),
      ∃ op2 rhs tail, mergeRunsAux l op r acc rest = .atom l op2 rhs :: tail ∧
        (op2 = op ∨ op2 = (CompOp.memberOp op).getD op) := by
  intro rest
  induction rest with
  | nil =>
      intro acc
      obtain ⟨op2, rhs, heq, hop⟩ := flushRun_shape l op r acc
      exact ⟨op2, rhs, [], by rw [mergeRunsAux_nil, heq], hop⟩
  | cons x rest2 ih =>
      intro acc
      cases x with
      | atom l2 op2 r2 =>
          by_cases hj : l2 = l ∧ op2 = op
          · rw [mergeRunsAux_cons_join hj.1 hj.2]
            exact ih (acc ++ [r2])
          · rw [mergeRunsAux_cons_nojoin hj]
            obtain ⟨op3, rhs, heq, hop⟩ := flushRun_shape l op r acc
            exact ⟨op3, rhs, _, by rw [heq], hop⟩
      | and ops =>
          rw [mergeRunsAux_cons_not_atom (by intro a b c h; cases h)]
          obtain ⟨op3, rhs, heq, hop⟩ := flushRun_shape l op r acc
          exact ⟨op3, rhs, _, by rw [heq], hop⟩
      | or ops =>
          rw [mergeRunsAux_cons_not_atom (by intro a b c h; cases h)]
          obtain ⟨op3, rhs, heq, hop⟩ := flushRun_shape l op r acc
          exact ⟨op3, rhs, _, by rw [heq], hop⟩
      | not e =>
          rw [mergeRunsAux_cons_not_atom (by intro a b c h; cases h)]
          obtain ⟨op3, rhs, heq, hop⟩ := flushRun_shape l op r acc
          exact ⟨op3, rhs, _, by rw [heq], hop⟩
      | btrue =>
          rw [mergeRunsAux_cons_not_atom (by intro a b c h; cases h)]
          obtain ⟨op3, rhs, heq, hop⟩ := flushRun_shape l op r acc
          exact ⟨op3, rhs, _, by rw [heq], hop⟩
      | bfalse =>
          rw [mergeRunsAux_cons_not_atom (by intro a b c h; cases h)]
          obtain ⟨op3, rhs, heq, hop⟩ := flushRun_shape l op r acc
          exact ⟨op3, rhs, _, by rw [heq], hop⟩

/-- Flushed runs are not `or` nodes. -/
theorem flushRun_isOrB (l : Value) (op : CompOp) (r : Value) (acc : List Value) :
    BoolExpr.isOrB (flushRun l op r acc) = false := by
  cases acc <;> rfl

/-- Flushed runs are not `and` nodes. -/
theorem flushRun_isAndB (l : Value) (op : CompOp) (r : Value) (acc : List Value) :
    BoolExpr.isAndB (flushRun l op r acc) = false := by
  cases acc <;> rfl

/-- Flushed runs are not boolean constants. -/
theorem flushRun_isConstB (l : Value) (op : CompOp) (r : Value) (acc : List Value) :
    BoolExpr.isConstB (flushRun l op r acc) = false := by
  cases acc <;> rfl

/-- Operand property carried through disjunction merging: normal form,
not an `or`, not a constant. -/
def orOperandOK (x : BoolExpr) : Prop :=
  isNF x = true ∧ BoolExpr.isOrB x = false ∧ BoolExpr.isConstB x = false

/-- Flushed runs of a mergeable, normal-form head are good operands. -/
theorem orOperandOK_flushRun {l : Value} {op : CompOp} {r : Value}
    (hnf : isNF (.atom l op r) = true) (h : (CompOp.memberOp op).isSome = true)
    (acc : List Value) : orOperandOK (flushRun l op r acc) :=
  ⟨isNF_flushRun hnf h acc, flushRun_isOrB l op r acc, flushRun_isConstB l op r acc⟩

/-- Merging preserves good operands (paired induction for `mergeRuns` and
its accumulator). -/
theorem mergeRuns_ok_strong :
    ∀ n : Nat,
      (∀ s : List BoolExpr, s.length ≤ n →
        (∀ x ∈ s, orOperandOK x) →
        ∀ y ∈ mergeRuns s, orOperandOK y) ∧
      (∀ (l : Value) (op : CompOp) (r : Value) (acc : List Value) (rest : List BoolExpr),
        rest.length ≤ n →
        (CompOp.memberOp op).isSome = true →
        isNF (.atom l op r) = true →
        (∀ x ∈ rest, orOperandOK x) →
        ∀ y ∈ mergeRunsAux l op r acc rest, orOperandOK y) := by
  intro n
  induction n with
  | zero =>
      constructor
      · intro s hs _ y hy
        rw [List.length_eq_zero.mp (Nat.le_zero.mp hs)] at hy
        simp [mergeRuns_nil] at hy
      · intro l op r acc rest hs hmem hnf _ y hy
        rw [List.length_eq_zero.mp (Nat.le_zero.mp hs)] at hy
        rw [mergeRunsAux_nil] at hy
        rcases List.mem_singleton.mp hy with rfl
        exact orOperandOK_flushRun hnf hmem acc
  | succ n ih =>
      constructor
      · intro s hs hall y hy
        cases s with
        | nil => simp [mergeRuns_nil] at hy
        | cons x rest =>
            have hrest : rest.length ≤ n := by
              simpa using Nat.succ_le_succ_iff.mp hs
            cases x with
            | atom l op r =>
                by_cases hm : (CompOp.memberOp op).isSome = true
                · rw [mergeRuns_cons_mergeable hm] at hy
                  exact ih.2 l op r [] rest hrest hm
                    (hall _ (List.mem_cons_self _ _)).1
                    (fun x hx => hall x (List.mem_cons_of_mem _ hx)) y hy
                · rw [mergeRuns_cons_not_mergeable (by simpa using hm)] at hy
                  rcases List.mem_cons.mp hy with rfl | hy
                  · exact hall _ (List.mem_cons_self _ _)
                  · exact ih.1 rest hrest
                      (fun x hx => hall x (List.mem_cons_of_mem _ hx)) y hy
            | and ops =>
                rw [mergeRuns_cons_not_atom (by intro a b c h; cases h)] at hy
                rcases List.mem_cons.mp hy with rfl | hy
                · exact hall _ (List.mem_cons_self _ _)
                · exact ih.1 rest hrest
                    (fun x hx => hall x (List.mem_cons_of_mem _ hx)) y hy
            | or ops =>
                rw [mergeRuns_cons_not_atom (by intro a b c h; cases h)] at hy
                rcases List.mem_cons.mp hy with rfl | hy
                · exact hall _ (List.mem_cons_self _ _)
                · exact ih.1 rest hrest
                    (fun x hx => hall x (List.mem_cons_of_mem _ hx)) y hy
            | not e =>
                rw [mergeRuns_cons_not_atom (by intro a b c h; cases h)] at hy
                rcases List.mem_cons.mp hy with rfl | hy
                · exact hall _ (List.mem_cons_self _ _)
                · exact ih.1 rest hrest
                    (fun x hx => hall x (List.mem_cons_of_mem _ hx)) y hy
            | btrue =>
                rw [mergeRuns_cons_not_atom (by intro a b c h; cases h)] at hy
                rcases List.mem_cons.mp hy with rfl | hy
                · exact hall _ (List.mem_cons_self _ _)
                · exact ih.1 rest hrest
                    (fun x hx => hall x (List.mem_cons_of_mem _ hx)) y hy
            | bfalse =>
                rw [mergeRuns_cons_not_atom (by intro a b c h; cases h)] at hy
                rcases List.mem_cons.mp hy with rfl | hy
                · exact hall _ (List.mem_cons_self _ _)
                · exact ih.1 rest hrest
                    (fun x hx => hall x (List.mem_cons_of_mem _ hx)) y hy
      · intro l op r acc rest hs hmem hnf hall y hy
        cases rest with
        | nil =>
            rw [mergeRunsAux_nil] at hy
            rcases List.mem_singleton.mp hy with rfl
            exact orOperandOK_flushRun hnf hmem acc
        | cons x rest2 =>
            have hrest : rest2.length ≤ n := by
              simpa using Nat.succ_le_succ_iff.mp hs
            cases x with
            | atom l2 op2 r2 =>
                by_cases hj : l2 = l ∧ op2 = op
                · rw [mergeRunsAux_cons_join hj.1 hj.2] at hy
                  exact ih.2 l op r (acc ++ [r2]) rest2 hrest hmem hnf
                    (fun x hx => hall x (List.mem_cons_of_mem _ hx)) y hy
                · rw [mergeRunsAux_cons_nojoin hj] at hy
                  rcases List.mem_cons.mp hy with rfl | hy
                  · exact orOperandOK_flushRun hnf hmem acc
                  · by_cases hm2 : (CompOp.memberOp op2).isSome = true
                    · rw [if_pos hm2] at hy
                      exact ih.2 l2 op2 r2 [] rest2 hrest hm2
                        (hall _ (List.mem_cons_self _ _)).1
                        (fun x hx => hall x (List.mem_cons_of_mem _ hx)) y hy
                    · rw [if_neg hm2] at hy
                      rcases List.mem_cons.mp hy with rfl | hy
                      · exact hall _ (List.mem_cons_self _ _)
                      · exact ih.1 rest2 hrest
                          (fun x hx => hall x (List.mem_cons_of_mem _ hx)) y hy
            | and ops =>
                rw [mergeRunsAux_cons_not_atom (by intro a b c h; cases h)] at hy
                rcases List.mem_cons.mp hy with rfl | hy
                · exact orOperandOK_flushRun hnf hmem acc
                · rcases List.mem_cons.mp hy with rfl | hy
                  · exact hall _ (List.mem_cons_self _ _)
                  · exact ih.1 rest2 hrest
                      (fun x hx => hall x (List.mem_cons_of_mem _ hx)) y hy
            | or ops =>
                rw [mergeRunsAux_cons_not_atom (by intro a b c h; cases h)] at hy
                rcases List.mem_cons.mp hy with rfl | hy
                · exact orOperandOK_flushRun hnf hmem acc
                · rcases List.mem_cons.mp hy with rfl | hy
                  · exact hall _ (List.mem_cons_self _ _)
                  · exact ih.1 rest2 hrest
                      (fun x hx => hall x (List.mem_cons_of_mem _ hx)) y hy
            | not e =>
                rw [mergeRunsAux_cons_not_atom (by intro a b c h; cases h)] at hy
                rcases List.mem_cons.mp hy with rfl | hy
                · exact orOperandOK_flushRun hnf hmem acc
                · rcases List.mem_cons.mp hy with rfl | hy
                  · exact hall _ (List.mem_cons_self _ _)
                  · exact ih.1 rest2 hrest
                      (fun x hx => hall x (List.mem_cons_of_mem _ hx)) y hy
            | btrue =>
                rw [mergeRunsAux_cons_not_atom (by intro a b c h; cases h)] at hy
                rcases List.mem_cons.mp hy with rfl | hy
                · exact orOperandOK_flushRun hnf hmem acc
                · rcases List.mem_cons.mp hy with rfl | hy
                  · exact hall _ (List.mem_cons_self _ _)
                  · exact ih.1 rest2 hrest
                      (fun x hx => hall x (List.mem_cons_of_mem _ hx)) y hy
            | bfalse =>
                rw [mergeRunsAux_cons_not_atom (by intro a b c h; cases h)] at hy
                rcases List.mem_cons.mp hy with rfl | hy
                · exact orOperandOK_flushRun hnf hmem acc
                · rcases List.mem_cons.mp hy with rfl | hy
                  · exact hall _ (List.mem_cons_self _ _)
                  · exact ih.1 rest2 hrest
                      (fun x hx => hall x (List.mem_cons_of_mem _ hx)) y hy

/-- Merging preserves good operands. -/
theorem mergeRuns_ok {s : List BoolExpr} (hall : ∀ x ∈ s, orOperandOK x) :
    ∀ y ∈ mergeRuns s, orOperandOK y :=
  (mergeRuns_ok_strong s.length).1 s le_rfl hall

/-- Any non-atom is not an atom (helper for the unfolding equations). -/
theorem not_atom_of_not_exists {x : BoolExpr} (hx : ¬ ∃ l op r, x = BoolExpr.atom l op r) :
    ∀ l op r, x ≠ BoolExpr.atom l op r := by
  intro a b c h
  exact hx ⟨a, b, c, h⟩

/-- Merging only produces operands whose ordering key already occurs in
the input list (paired induction). -/
theorem mergeRuns_keys_strong :
    ∀ n : Nat,
      (∀ s : List BoolExpr, s.length ≤ n →
        ∀ y ∈ mergeRuns s, ∃ x ∈ s, BoolExpr.bKey y = BoolExpr.bKey x) ∧
      (∀ (l : Value) (op : CompOp) (r : Value) (acc : List Value) (rest : List BoolExpr),
        rest.length ≤ n → (CompOp.memberOp op).isSome = true →
        ∀ y ∈ mergeRunsAux l op r acc rest,
          BoolExpr.bKey y = BoolExpr.bKey (.atom l op r) ∨
            ∃ x ∈ rest, BoolExpr.bKey y = BoolExpr.bKey x) := by
  intro n
  induction n with
  | zero =>
      constructor
      · intro s hs y hy
        rw [List.length_eq_zero.mp (Nat.le_zero.mp hs)] at hy
        simp [mergeRuns_nil] at hy
      · intro l op r acc rest hs hmem y hy
        rw [List.length_eq_zero.mp (Nat.le_zero.mp hs)] at hy
        rw [mergeRunsAux_nil] at hy
        rcases List.mem_singleton.mp hy with rfl
        exact Or.inl (bKey_flushRun hmem l r acc)
  | succ n ih =>
      constructor
      · intro s hs y hy
        cases s with
        | nil => simp [mergeRuns_nil] at hy
        | cons x rest =>
            have hrest : rest.length ≤ n := by
              simpa using Nat.succ_le_succ_iff.mp hs
            by_cases hx : ∃ l op r, x = BoolExpr.atom l op r
            · obtain ⟨l, op, r, rfl⟩ := hx
              by_cases hm : (CompOp.memberOp op).isSome = true
              · rw [mergeRuns_cons_mergeable hm] at hy
                rcases ih.2 l op r [] rest hrest hm y hy with h | ⟨x2, hx2, hk⟩
                · exact ⟨_, List.mem_cons_self _ _, h⟩
                · exact ⟨x2, List.mem_cons_of_mem _ hx2, hk⟩
              · rw [mergeRuns_cons_not_mergeable (by simpa using hm)] at hy
                rcases List.mem_cons.mp hy with rfl | hy
                · exact ⟨_, List.mem_cons_self _ _, rfl⟩
                · obtain ⟨x2, hx2, hk⟩ := ih.1 rest hrest y hy
                  exact ⟨x2, List.mem_cons_of_mem _ hx2, hk⟩
            · rw [mergeRuns_cons_not_atom (not_atom_of_not_exists hx)] at hy
              rcases List.mem_cons.mp hy with rfl | hy
              · exact ⟨_, List.mem_cons_self _ _, rfl⟩
              · obtain ⟨x2, hx2, hk⟩ := ih.1 rest hrest y hy
                exact ⟨x2, List.mem_cons_of_mem _ hx2, hk⟩
      · intro l op r acc rest hs hmem y hy
        cases rest with
        | nil =>
            rw [mergeRunsAux_nil] at hy
            rcases List.mem_singleton.mp hy with rfl
            exact Or.inl (bKey_flushRun hmem l r acc)
        | cons x rest2 =>
            have hrest : rest2.length ≤ n := by
              simpa using Nat.succ_le_succ_iff.mp hs
            by_cases hx : ∃ l2 op2 r2, x = BoolExpr.atom l2 op2 r2
            · obtain ⟨l2, op2, r2, rfl⟩ := hx
              by_cases hj : l2 = l ∧ op2 = op
              · rw [mergeRunsAux_cons_join hj.1 hj.2] at hy
                rcases ih.2 l op r (acc ++ [r2]) rest2 hrest hmem y hy with h | ⟨x2, hx2, hk⟩
                · exact Or.inl h
                · exact Or.inr ⟨x2, List.mem_cons_of_mem _ hx2, hk⟩
              · rw [mergeRunsAux_cons_nojoin hj] at hy
                rcases List.mem_cons.mp hy with rfl | hy
                · exact Or.inl (bKey_flushRun hmem l r acc)
                · by_cases hm2 : (CompOp.memberOp op2).isSome = true
                  · rw [if_pos hm2] at hy
                    rcases ih.2 l2 op2 r2 [] rest2 hrest hm2 y hy with h | ⟨x2, hx2, hk⟩
                    · exact Or.inr ⟨_, List.mem_cons_self _ _, h⟩
                    · exact Or.inr ⟨x2, List.mem_cons_of_mem _ hx2, hk⟩
                  · rw [if_neg hm2] at hy
                    rcases List.mem_cons.mp hy with rfl | hy
                    · exact Or.inr ⟨_, List.mem_cons_self _ _, rfl⟩
                    · obtain ⟨x2, hx2, hk⟩ := ih.1 rest2 hrest y hy
                      exact Or.inr ⟨x2, List.mem_cons_of_mem _ hx2, hk⟩
            · rw [mergeRunsAux_cons_not_atom (not_atom_of_not_exists hx)] at hy
              rcases List.mem_cons.mp hy with rfl | hy
              · exact Or.inl (bKey_flushRun hmem l r acc)
              · rcases List.mem_cons.mp hy with rfl | hy
                · exact Or.inr ⟨_, List.mem_cons_self _ _, rfl⟩
                · obtain ⟨x2, hx2, hk⟩ := ih.1 rest2 hrest y hy
                  exact Or.inr ⟨x2, List.mem_cons_of_mem _ hx2, hk⟩

/-- Merging only produces operands whose ordering key already occurs in
the input list. -/
theorem mergeRuns_keys {s : List BoolExpr} :
    ∀ y ∈ mergeRuns s, ∃ x ∈ s, BoolExpr.bKey y = BoolExpr.bKey x :=
  (mergeRuns_keys_strong s.length).1 s le_rfl

/-- Canonical order only depends on the key (right congruence). -/
theorem bLE_of_key_right {a x y : BoolExpr} (h : BoolExpr.bKey y = BoolExpr.bKey x)
    (hle : bLE a x) : bLE a y := by
  unfold bLE at hle ⊢
  rw [h]
  exact hle

/-- Canonical order only depends on the key (left congruence). -/
theorem bLE_of_key_left {b x y : BoolExpr} (h : BoolExpr.bKey y = BoolExpr.bKey x)
    (hle : bLE x b) : bLE y b := by
  unfold bLE at hle ⊢
  rw [h]
  exact hle

/-- Merging keeps the operand list canonically sorted (paired
induction). -/
theorem mergeRuns_sorted_strong :
    ∀ n : Nat,
      (∀ s : List BoolExpr, s.length ≤ n → List.Pairwise bLE s →
        List.Pairwise bLE (mergeRuns s)) ∧
      (∀ (l : Value) (op : CompOp) (r : Value) (acc : List Value) (rest : List BoolExpr),
        rest.length ≤ n → (CompOp.memberOp op).isSome = true →
        List.Pairwise bLE rest → (∀ y ∈ rest, bLE (.atom l op r) y) →
        List.Pairwise bLE (mergeRunsAux l op r acc rest)) := by
  intro n
  induction n with
  | zero =>
      constructor
      · intro s hs _
        rw [List.length_eq_zero.mp (Nat.le_zero.mp hs), mergeRuns_nil]
        exact List.Pairwise.nil
      · intro l op r acc rest hs hmem _ _
        rw [List.length_eq_zero.mp (Nat.le_zero.mp hs), mergeRunsAux_nil]
        exact List.pairwise_singleton _ _
  | succ n ih =>
      constructor
      · intro s hs hp
        cases s with
        | nil => rw [mergeRuns_nil]; exact List.Pairwise.nil
        | cons x rest =>
            have hrest : rest.length ≤ n := by
              simpa using Nat.succ_le_succ_iff.mp hs
            have hlb : ∀ y ∈ rest, bLE x y := (List.pairwise_cons.mp hp).1
            have hpr : List.Pairwise bLE rest := (List.pairwise_cons.mp hp).2
            by_cases hx : ∃ l op r, x = BoolExpr.atom l op r
            · obtain ⟨l, op, r, rfl⟩ := hx
              by_cases hm : (CompOp.memberOp op).isSome = true
              · rw [mergeRuns_cons_mergeable hm]
                exact ih.2 l op r [] rest hrest hm hpr hlb
              · rw [mergeRuns_cons_not_mergeable (by simpa using hm)]
                refine List.pairwise_cons.mpr ⟨?_, ih.1 rest hrest hpr⟩
                intro y hy
                obtain ⟨x2, hx2, hk⟩ := mergeRuns_keys y hy
                exact bLE_of_key_right hk (hlb x2 hx2)
            · rw [mergeRuns_cons_not_atom (not_atom_of_not_exists hx)]
              refine List.pairwise_cons.mpr ⟨?_, ih.1 rest hrest hpr⟩
              intro y hy
              obtain ⟨x2, hx2, hk⟩ := mergeRuns_keys y hy
              exact bLE_of_key_right hk (hlb x2 hx2)
      · intro l op r acc rest hs hmem hp hlb
        cases rest with
        | nil => rw [mergeRunsAux_nil]; exact List.pairwise_singleton _ _
        | cons x rest2 =>
            have hrest : rest2.length ≤ n := by
              simpa using Nat.succ_le_succ_iff.mp hs
            have hlb2 : ∀ y ∈ rest2, bLE x y := (List.pairwise_cons.mp hp).1
            have hpr : List.Pairwise bLE rest2 := (List.pairwise_cons.mp hp).2
            have hkflush : BoolExpr.bKey (flushRun l op r acc) =
                BoolExpr.bKey (.atom l op r) := bKey_flushRun hmem l r acc
            by_cases hx : ∃ l2 op2 r2, x = BoolExpr.atom l2 op2 r2
            · obtain ⟨l2, op2, r2, rfl⟩ := hx
              by_cases hj : l2 = l ∧ op2 = op
              · rw [mergeRunsAux_cons_join hj.1 hj.2]
                exact ih.2 l op r (acc ++ [r2]) rest2 hrest hmem hpr
                  (fun y hy => hlb y (List.mem_cons_of_mem _ hy))
              · rw [mergeRunsAux_cons_nojoin hj]
                by_cases hm2 : (CompOp.memberOp op2).isSome = true
                · rw [if_pos hm2]
                  refine List.pairwise_cons.mpr ⟨?_, ih.2 l2 op2 r2 [] rest2 hrest hm2 hpr hlb2⟩
                  intro y hy
                  rcases (mergeRuns_keys_strong rest2.length).2 l2 op2 r2 [] rest2
                      le_rfl hm2 y hy with hk | ⟨x2, hx2, hk⟩
                  · exact bLE_of_key_left hkflush
                      (bLE_of_key_right hk (hlb _ (List.mem_cons_self _ _)))
                  · exact bLE_of_key_left hkflush
                      (bLE_of_key_right hk (hlb x2 (List.mem_cons_of_mem _ hx2)))
                · rw [if_neg hm2]
                  refine List.pairwise_cons.mpr ⟨?_, ?_⟩
                  · intro y hy
                    rcases List.mem_cons.mp hy with rfl | hy
                    · exact bLE_of_key_left hkflush (hlb _ (List.mem_cons_self _ _))
                    · obtain ⟨x2, hx2, hk⟩ := mergeRuns_keys y hy
                      exact bLE_of_key_left hkflush
                        (bLE_of_key_right hk (hlb x2 (List.mem_cons_of_mem _ hx2)))
                  · refine List.pairwise_cons.mpr ⟨?_, ih.1 rest2 hrest hpr⟩
                    intro y hy
                    obtain ⟨x2, hx2, hk⟩ := mergeRuns_keys y hy
                    exact bLE_of_key_right hk (hlb2 x2 hx2)
            · rw [mergeRunsAux_cons_not_atom (not_atom_of_not_exists hx)]
              refine List.pairwise_cons.mpr ⟨?_, ?_⟩
              · intro y hy
                rcases List.mem_cons.mp hy with rfl | hy
                · exact bLE_of_key_left hkflush (hlb _ (List.mem_cons_self _ _))
                · obtain ⟨x2, hx2, hk⟩ := mergeRuns_keys y hy
                  exact bLE_of_key_left hkflush
                    (bLE_of_key_right hk (hlb x2 (List.mem_cons_of_mem _ hx2)))
              · refine List.pairwise_cons.mpr ⟨?_, ih.1 rest2 hrest hpr⟩
                intro y hy
                obtain ⟨x2, hx2, hk⟩ := mergeRuns_keys y hy
                exact bLE_of_key_right hk (hlb2 x2 hx2)

/-- Merging keeps the operand list canonically sorted. -/
theorem mergeRuns_sorted {s : List BoolExpr} (hp : List.Pairwise bLE s) :
    List.Pairwise bLE (mergeRuns s) :=
  (mergeRuns_sorted_strong s.length).1 s le_rfl hp

/-- Unfolding of `runPairB` on two atoms. -/
theorem runPairB_atoms (l : Value) (op : CompOp) (r : Value)
    (l2 : Value) (op2 : CompOp) (r2 : Value) :
    runPairB (.atom l op r) (.atom l2 op2 r2) =
      ((CompOp.memberOp op).isSome && decide (l2 = l) && decide (op2 = op)) := rfl

/-- A pair headed by a non-mergeable atom is never a run. -/
theorem runPairB_false_first_not_mergeable {l : Value} {op : CompOp} {r : Value}
    (h : (CompOp.memberOp op).isSome = false) (b : BoolExpr) :
    runPairB (.atom l op r) b = false := by
  cases b <;> simp [runPairB, h]

/-- A pair headed by a non-atom is never a run. -/
theorem runPairB_false_first_not_atom {a : BoolExpr}
    (h : ∀ l op r, a ≠ .atom l op r) (b : BoolExpr) : runPairB a b = false := by
  cases a with
  | atom l op r => exact absurd rfl (h l op r)
  | _ => cases b <;> rfl

/-- A pair whose second member is not an atom is never a run. -/
theorem runPairB_false_second_not_atom {b : BoolExpr}
    (h : ∀ l op r, b ≠ .atom l op r) (a : BoolExpr) : runPairB a b = false := by
  cases b with
  | atom l op r => exact absurd rfl (h l op r)
  | _ => cases a <;> rfl

/-- Unfolding of `noRunsB` on a cons cell, in head-option form. -/
theorem noRunsB_cons_iff (a : BoolExpr) (t : List BoolExpr) :
    noRunsB (a :: t) = true ↔
      (∀ b, t.head? = some b → runPairB a b = false) ∧ noRunsB t = true := by
  cases t with
  | nil => simp [noRunsB]
  | cons b t2 =>
      simp only [noRunsB, Bool.and_eq_true, Bool.not_eq_true', List.head?]
      constructor
      · rintro ⟨h1, h2⟩
        exact ⟨fun c hc => by cases hc; exact h1, h2⟩
      · rintro ⟨h1, h2⟩
        exact ⟨h1 b rfl, h2⟩

/-- The merged operator of a mergeable operator is itself not mergeable
and differs from every mergeable operator. -/
theorem memberOp_getD_ne {op op2 : CompOp} (h : (CompOp.memberOp op).isSome = true)
    (hne : op2 ≠ op) : (CompOp.memberOp op2).getD op2 ≠ op := by
  cases op <;> cases op2 <;> simp_all [CompOp.memberOp]

/-- The merged operator is never itself mergeable. -/
theorem memberOp_getD_not_mergeable {op : CompOp} (h : (CompOp.memberOp op).isSome = true) :
    (CompOp.memberOp ((CompOp.memberOp op).getD op)).isSome = false := by
  cases op <;> simp_all [CompOp.memberOp]

/-- After merging, no adjacent pair of operands forms a mergeable run
(paired induction). -/
theorem mergeRuns_noRuns_strong :
    ∀ n : Nat,
      (∀ s : List BoolExpr, s.length ≤ n → noRunsB (mergeRuns s) = true) ∧
      (∀ (l : Value) (op : CompOp) (r : Value) (acc : List Value) (rest : List BoolExpr),
        rest.length ≤ n → (CompOp.memberOp op).isSome = true →
        noRunsB (mergeRunsAux l op r acc rest) = true) := by
  intro n
  induction n with
  | zero =>
      constructor
      · intro s hs
        rw [List.length_eq_zero.mp (Nat.le_zero.mp hs), mergeRuns_nil]
        rfl
      · intro l op r acc rest hs hmem
        rw [List.length_eq_zero.mp (Nat.le_zero.mp hs), mergeRunsAux_nil]
        rfl
  | succ n ih =>
      constructor
      · intro s hs
        cases s with
        | nil => rw [mergeRuns_nil]; rfl
        | cons x rest =>
            have hrest : rest.length ≤ n := by
              simpa using Nat.succ_le_succ_iff.mp hs
            by_cases hx : ∃ l op r, x = BoolExpr.atom l op r
            · obtain ⟨l, op, r, rfl⟩ := hx
              by_cases hm : (CompOp.memberOp op).isSome = true
              · rw [mergeRuns_cons_mergeable hm]
                exact ih.2 l op r [] rest hrest hm
              · rw [mergeRuns_cons_not_mergeable (by simpa using hm)]
                refine (noRunsB_cons_iff _ _).mpr ⟨?_, ih.1 rest hrest⟩
                intro b _
                exact runPairB_false_first_not_mergeable (by simpa using hm) b
            · rw [mergeRuns_cons_not_atom (not_atom_of_not_exists hx)]
              refine (noRunsB_cons_iff _ _).mpr ⟨?_, ih.1 rest hrest⟩
              intro b _
              exact runPairB_false_first_not_atom (not_atom_of_not_exists hx) b
      · intro l op r acc rest hs hmem
        cases rest with
        | nil => rw [mergeRunsAux_nil]; rfl
        | cons x rest2 =>
            have hrest : rest2.length ≤ n := by
              simpa using Nat.succ_le_succ_iff.mp hs
            by_cases hx : ∃ l2 op2 r2, x = BoolExpr.atom l2 op2 r2
            · obtain ⟨l2, op2, r2, rfl⟩ := hx
              by_cases hj : l2 = l ∧ op2 = op
              · rw [mergeRunsAux_cons_join hj.1 hj.2]
                exact ih.2 l op r (acc ++ [r2]) rest2 hrest hmem
              · rw [mergeRunsAux_cons_nojoin hj]
                by_cases hm2 : (CompOp.memberOp op2).isSome = true
                · rw [if_pos hm2]
                  refine (noRunsB_cons_iff _ _).mpr
                    ⟨?_, ih.2 l2 op2 r2 [] rest2 hrest hm2⟩
                  intro b hb
                  obtain ⟨op3, rhs, tail, heq, hop3⟩ := mergeRunsAux_head l2 op2 r2 rest2 []
                  rw [heq] at hb
                  simp only [List.head?] at hb
                  cases hb
                  cases acc with
                  | nil =>
                      rw [flushRun_nil_eq, runPairB_atoms]
                      by_cases hll : l2 = l
                      · have hoo : op2 ≠ op := fun hc => hj ⟨hll, hc⟩
                        have : op3 ≠ op := by
                          rcases hop3 with rfl | rfl
                          · exact hoo
                          · exact memberOp_getD_ne hmem hoo
                        simp [this]
                      · simp [hll]
                  | cons a as =>
                      have := memberOp_getD_not_mergeable hmem
                      rw [flushRun_cons_eq, runPairB_atoms]
                      simp [this]
                · rw [if_neg hm2]
                  refine (noRunsB_cons_iff _ _).mpr ⟨?_, ?_⟩
                  · intro b hb
                    simp only [List.head?] at hb
                    cases hb
                    cases acc with
                    | nil =>
                        rw [flushRun_nil_eq, runPairB_atoms]
                        by_cases hll : l2 = l
                        · have hoo : op2 ≠ op := fun hc => hj ⟨hll, hc⟩
                          simp [hoo]
                        · simp [hll]
                    | cons a as =>
                        have := memberOp_getD_not_mergeable hmem
                        rw [flushRun_cons_eq, runPairB_atoms]
                        simp [this]
                  · refine (noRunsB_cons_iff _ _).mpr ⟨?_, ih.1 rest2 hrest⟩
                    intro b _
                    exact runPairB_false_first_not_mergeable (by simpa using hm2) b
            · rw [mergeRunsAux_cons_not_atom (not_atom_of_not_exists hx)]
              refine (noRunsB_cons_iff _ _).mpr ⟨?_, ?_⟩
              · intro b hb
                simp only [List.head?] at hb
                cases hb
                exact runPairB_false_second_not_atom (not_atom_of_not_exists hx) _
              · refine (noRunsB_cons_iff _ _).mpr ⟨?_, ih.1 rest2 hrest⟩
                intro b _
                exact runPairB_false_first_not_atom (not_atom_of_not_exists hx) b

/-- After merging, no adjacent pair of operands forms a mergeable run. -/
theorem mergeRuns_noRuns (s : List BoolExpr) : noRunsB (mergeRuns s) = true :=
  (mergeRuns_noRuns_strong s.length).1 s le_rfl

/-- A run head whose successor does not join passes through unchanged
(the accumulator starts and immediately flushes). -/
theorem mergeRunsAux_nojoin (l : Value) (op : CompOp) (r : Value)
    (rest : List BoolExpr)
    (h : ∀ b, rest.head? = some b → runPairB (.atom l op r) b = false)
    (hmem : (CompOp.memberOp op).isSome = true) :
    mergeRunsAux l op r [] rest = .atom l op r :: mergeRuns rest := by
  cases rest with
  | nil => rw [mergeRunsAux_nil]; rfl
  | cons x rest2 =>
      by_cases hx : ∃ l2 op2 r2, x = BoolExpr.atom l2 op2 r2
      · obtain ⟨l2, op2, r2, rfl⟩ := hx
        have hpair := h _ rfl
        rw [runPairB_atoms, hmem] at hpair
        have hj : ¬(l2 = l ∧ op2 = op) := by
          rintro ⟨h1, h2⟩
          simp [h1, h2] at hpair
        rw [mergeRunsAux_cons_nojoin hj]
        show flushRun l op r [] :: _ = _
        rw [flushRun_nil_eq]
        by_cases hm2 : (CompOp.memberOp op2).isSome = true
        · rw [if_pos hm2, mergeRuns_cons_mergeable hm2]
        · rw [if_neg hm2, mergeRuns_cons_not_mergeable (by simpa using hm2)]
      · rw [mergeRunsAux_cons_not_atom (not_atom_of_not_exists hx),
          mergeRuns_cons_not_atom (not_atom_of_not_exists hx)]
        rfl

/-- A list with no mergeable runs is untouched by merging. -/
theorem mergeRuns_eq_self {s : List BoolExpr} (h : noRunsB s = true) :
    mergeRuns s = s := by
  induction s with
  | nil => rfl
  | cons x rest ih =>
      obtain ⟨hhead, htail⟩ := (noRunsB_cons_iff x rest).mp h
      by_cases hx : ∃ l op r, x = BoolExpr.atom l op r
      · obtain ⟨l, op, r, rfl⟩ := hx
        by_cases hm : (CompOp.memberOp op).isSome = true
        · rw [mergeRuns_cons_mergeable hm, mergeRunsAux_nojoin l op r rest hhead hm,
            ih htail]
        · rw [mergeRuns_cons_not_mergeable (by simpa using hm), ih htail]
      · rw [mergeRuns_cons_not_atom (not_atom_of_not_exists hx), ih htail]

/-- Normalizing an operand list is mapping the normalizer over it. -/
theorem normList_eq_map (l : List BoolExpr) : normList l = l.map normalize := by
  induction l with
  | nil => rfl
  | cons x xs ih => simp [normList, ih]

/-- Shape of constants. -/
theorem Value.isConst_iff {v : Value} : v.isConst = true ↔ ∃ t n, v = .const t n := by
  cases v <;> simp [Value.isConst]

/-- Shape of computed expressions. -/
theorem Value.isComputed_iff {v : Value} : v.isComputed = true ↔ ∃ f as, v = .computed f as := by
  cases v <;> simp [Value.isComputed]

/-- Atom normalization always lands in normal form. -/
theorem normalizeAtom_isNF (l : Value) (op : CompOp) (r : Value) :
    isNF (normalizeAtom l op r) = true := by
  unfold normalizeAtom
  by_cases h1 : (op.isReflexiveTrue && decide (l = r)) = true
  · rw [if_pos h1]; rfl
  · rw [if_neg (by simpa using h1)]
    by_cases h2 : (l.isConst && r.isConst) = true
    · rw [if_pos h2]
      cases hev : evalComp l op r with
      | none =>
          show atomNF l op r = true
          have hcomp : r.isComputed = false := by
            obtain ⟨t, n, rfl⟩ := Value.isConst_iff.mp (Bool.and_elim_right h2)
            rfl
          simp [atomNF, h1, hev, hcomp]
      | some b => cases b <;> rfl
    · rw [if_neg (by simpa using h2)]
      by_cases h3 : (op.isOrdering && l.isConst && r.isComputed) = true
      · rw [if_pos h3]
        show atomNF r op.flipOp l = true
        have hl : l.isConst = true := Bool.and_elim_right (Bool.and_elim_left h3)
        have hr : r.isComputed = true := Bool.and_elim_right h3
        obtain ⟨t, n, rfl⟩ := Value.isConst_iff.mp hl
        obtain ⟨f, as, rfl⟩ := Value.isComputed_iff.mp hr
        simp [atomNF, Value.isConst, Value.isComputed]
      · rw [if_neg (by simpa using h3)]
        show atomNF l op r = true
        simp only [atomNF, h1]
        have h2' : (l.isConst && r.isConst) = false := by simpa using h2
        have h3' : (op.isOrdering && l.isConst && r.isComputed) = false := by simpa using h3
        simp only [Bool.not_eq_true'] at h1
        simp [h1, h2', h3']

/-- An atom in normal form is untouched by atom normalization. -/
theorem normalizeAtom_eq_self {l : Value} {op : CompOp} {r : Value}
    (h : atomNF l op r = true) : normalizeAtom l op r = .atom l op r := by
  simp only [atomNF, Bool.and_eq_true, Bool.not_eq_true'] at h
  obtain ⟨⟨h1, h2⟩, h3⟩ := h
  unfold normalizeAtom
  rw [if_neg (by simp [h1])]
  by_cases hc : (l.isConst && r.isConst) = true
  · rw [if_pos hc]
    have hev : (evalComp l op r).isSome = false := by
      rcases Bool.and_eq_false_iff.mp h2 with h | h
      · rw [Bool.and_eq_true] at hc
        rcases Bool.and_eq_false_iff.mp h with h' | h'
        · rw [hc.1] at h'; cases h'
        · rw [hc.2] at h'; cases h'
      · exact h
    cases hevc : evalComp l op r with
    | none => rfl
    | some b => rw [hevc] at hev; cases hev
  · rw [if_neg hc, if_neg (by simp [h3])]

/-- Unfolded characterization of conjunction normal forms. -/
theorem isNF_and_iff (ops : List BoolExpr) :
    isNF (.and ops) = true ↔
      2 ≤ ops.length ∧ (∀ x ∈ ops, isNF x = true) ∧
        (∀ x ∈ ops, BoolExpr.isAndB x = false ∧ BoolExpr.isConstB x = false) ∧
        List.Pairwise bLE ops := by
  show (decide (2 ≤ ops.length) && allNF ops &&
      ops.all (fun x => !(BoolExpr.isAndB x) && !(BoolExpr.isConstB x)) &&
      sortedB ops) = true ↔ _
  simp only [Bool.and_eq_true, decide_eq_true_eq, allNF_iff, sortedB_iff,
    List.all_eq_true, Bool.not_eq_true']
  tauto

/-- Unfolded characterization of disjunction normal forms. -/
theorem isNF_or_iff (ops : List BoolExpr) :
    isNF (.or ops) = true ↔
      2 ≤ ops.length ∧ (∀ x ∈ ops, isNF x = true) ∧
        (∀ x ∈ ops, BoolExpr.isOrB x = false ∧ BoolExpr.isConstB x = false) ∧
        List.Pairwise bLE ops ∧ noRunsB ops = true := by
  show (decide (2 ≤ ops.length) && allNF ops &&
      ops.all (fun x => !(BoolExpr.isOrB x) && !(BoolExpr.isConstB x)) &&
      sortedB ops && noRunsB ops) = true ↔ _
  simp only [Bool.and_eq_true, decide_eq_true_eq, allNF_iff, sortedB_iff,
    List.all_eq_true, Bool.not_eq_true']
  tauto

/-- A non-constant expression is neither True nor False. -/
theorem not_const_split {y : BoolExpr} (h : BoolExpr.isConstB y = false) :
    BoolExpr.isTrueB y = false ∧ BoolExpr.isFalseB y = false := by
  cases y <;> simp_all [BoolExpr.isConstB, BoolExpr.isTrueB, BoolExpr.isFalseB]

/-- Conjunction reconstruction from normal operands lands in normal
form. -/
theorem mkAnd_isNF {ns : List BoolExpr} (h : ∀ x ∈ ns, isNF x = true) :
    isNF (mkAnd ns) = true := by
  have hfl : ∀ y ∈ flattenAnd ns, isNF y = true ∧ BoolExpr.isAndB y = false := by
    intro y hy
    rcases mem_flattenAnd hy with ⟨hmem, hna⟩ | ⟨ops, hin, hyops⟩
    · exact ⟨h y hmem, hna⟩
    · have := (isNF_and_iff ops).mp (h _ hin)
      exact ⟨this.2.1 y hyops, (this.2.2.1 y hyops).1⟩
  unfold mkAnd
  by_cases hany : (flattenAnd ns).any BoolExpr.isFalseB = true
  · rw [if_pos hany]; rfl
  · rw [if_neg hany]
    have hnofalse : ∀ y ∈ flattenAnd ns, BoolExpr.isFalseB y = false := by
      intro y hy
      rcases hbf : BoolExpr.isFalseB y with _ | _
      · rfl
      · exact absurd (List.any_of_mem hy hbf) hany
    have hfil : ∀ y ∈ (flattenAnd ns).filter (fun x => !(BoolExpr.isTrueB x)),
        isNF y = true ∧ BoolExpr.isAndB y = false ∧ BoolExpr.isConstB y = false := by
      intro y hy
      obtain ⟨hmem, htb⟩ := List.mem_filter.mp hy
      refine ⟨(hfl y hmem).1, (hfl y hmem).2, ?_⟩
      have hfb := hnofalse y hmem
      cases y <;> simp_all [BoolExpr.isConstB, BoolExpr.isTrueB, BoolExpr.isFalseB]
    have hsortmem : ∀ y ∈ sortOps ((flattenAnd ns).filter (fun x => !(BoolExpr.isTrueB x))),
        isNF y = true ∧ BoolExpr.isAndB y = false ∧ BoolExpr.isConstB y = false := by
      intro y hy
      exact hfil y ((sortOps_perm _).mem_iff.mp hy)
    have hsorted := sortOps_sorted ((flattenAnd ns).filter (fun x => !(BoolExpr.isTrueB x)))
    rcases hst : sortOps ((flattenAnd ns).filter (fun x => !(BoolExpr.isTrueB x))) with
      _ | ⟨x, _ | ⟨y, tl⟩⟩
    · rfl
    · exact (hsortmem x (by rw [hst]; exact List.mem_cons_self _ _)).1
    · rw [isNF_and_iff]
      rw [hst] at hsortmem hsorted
      refine ⟨by simp, fun z hz => (hsortmem z hz).1,
        fun z hz => ⟨(hsortmem z hz).2.1, (hsortmem z hz).2.2⟩, hsorted⟩

/-- Disjunction reconstruction from normal operands lands in normal
form. -/
theorem mkOr_isNF {ns : List BoolExpr} (h : ∀ x ∈ ns, isNF x = true) :
    isNF (mkOr ns) = true := by
  have hfl : ∀ y ∈ flattenOr ns, isNF y = true ∧ BoolExpr.isOrB y = false := by
    intro y hy
    rcases mem_flattenOr hy with ⟨hmem, hna⟩ | ⟨ops, hin, hyops⟩
    · exact ⟨h y hmem, hna⟩
    · have := (isNF_or_iff ops).mp (h _ hin)
      exact ⟨this.2.1 y hyops, (this.2.2.1 y hyops).1⟩
  unfold mkOr
  by_cases hany : (flattenOr ns).any BoolExpr.isTrueB = true
  · rw [if_pos hany]; rfl
  · rw [if_neg hany]
    have hnotrue : ∀ y ∈ flattenOr ns, BoolExpr.isTrueB y = false := by
      intro y hy
      rcases hbf : BoolExpr.isTrueB y with _ | _
      · rfl
      · exact absurd (List.any_of_mem hy hbf) hany
    have hfil : ∀ y ∈ (flattenOr ns).filter (fun x => !(BoolExpr.isFalseB x)),
        orOperandOK y := by
      intro y hy
      obtain ⟨hmem, htb⟩ := List.mem_filter.mp hy
      refine ⟨(hfl y hmem).1, (hfl y hmem).2, ?_⟩
      have hfb := hnotrue y hmem
      cases y <;> simp_all [BoolExpr.isConstB, BoolExpr.isTrueB, BoolExpr.isFalseB]
    have hsortmem : ∀ y ∈ sortOps ((flattenOr ns).filter (fun x => !(BoolExpr.isFalseB x))),
        orOperandOK y := by
      intro y hy
      exact hfil y ((sortOps_perm _).mem_iff.mp hy)
    have hsorted := sortOps_sorted ((flattenOr ns).filter (fun x => !(BoolExpr.isFalseB x)))
    have hmerged : ∀ y ∈ mergeRuns
        (sortOps ((flattenOr ns).filter (fun x => !(BoolExpr.isFalseB x)))), orOperandOK y :=
      mergeRuns_ok hsortmem
    have hmsorted := mergeRuns_sorted hsorted
    have hmnoruns := mergeRuns_noRuns
      (sortOps ((flattenOr ns).filter (fun x => !(BoolExpr.isFalseB x))))
    rcases hst : mergeRuns
        (sortOps ((flattenOr ns).filter (fun x => !(BoolExpr.isFalseB x)))) with
      _ | ⟨x, _ | ⟨y, tl⟩⟩
    · rfl
    · exact (hmerged x (by rw [hst]; exact List.mem_cons_self _ _)).1
    · rw [isNF_or_iff]
      rw [hst] at hmerged hmsorted hmnoruns
      refine ⟨by simp, fun z hz => (hmerged z hz).1,
        fun z hz => ⟨(hmerged z hz).2.1, (hmerged z hz).2.2⟩, hmsorted, hmnoruns⟩

/-- A conjunction in normal form is rebuilt unchanged. -/
theorem mkAnd_eq_self {ops : List BoolExpr} (h : isNF (.and ops) = true) :
    mkAnd ops = .and ops := by
  obtain ⟨hlen, hnf, hshape, hsorted⟩ := (isNF_and_iff ops).mp h
  unfold mkAnd
  rw [flattenAnd_eq_self (fun x hx => (hshape x hx).1)]
  have hany : ops.any BoolExpr.isFalseB = false := by
    rw [List.any_eq_false]
    intro x hx
    simp [(not_const_split (hshape x hx).2).2]
  rw [hany]
  simp only [Bool.false_eq_true, if_false]
  rw [List.filter_eq_self.mpr (fun x hx => by simp [(not_const_split (hshape x hx).2).1])]
  rw [sortOps_eq_self hsorted]
  cases ops with
  | nil => simp at hlen
  | cons a t =>
      cases t with
      | nil => simp at hlen
      | cons b t2 => rfl

/-- A disjunction in normal form is rebuilt unchanged. -/
theorem mkOr_eq_self {ops : List BoolExpr} (h : isNF (.or ops) = true) :
    mkOr ops = .or ops := by
  obtain ⟨hlen, hnf, hshape, hsorted, hnoruns⟩ := (isNF_or_iff ops).mp h
  unfold mkOr
  rw [flattenOr_eq_self (fun x hx => (hshape x hx).1)]
  have hany : ops.any BoolExpr.isTrueB = false := by
    rw [List.any_eq_false]
    intro x hx
    simp [(not_const_split (hshape x hx).2).1]
  rw [hany]
  simp only [Bool.false_eq_true, if_false]
  rw [List.filter_eq_self.mpr (fun x hx => by simp [(not_const_split (hshape x hx).2).2])]
  rw [sortOps_eq_self hsorted]
  rw [mergeRuns_eq_self hnoruns]
  cases ops with
  | nil => simp at hlen
  | cons a t =>
      cases t with
      | nil => simp at hlen
      | cons b t2 => rfl

/-- The boolean normalizer always lands in normal form. -/
theorem norm_isNF : ∀ e : BoolExpr, isNF (normalize e) = true := by
  intro e
  induction e using BoolExpr.bexprInduction with
  | hatom l op r => exact normalizeAtom_isNF l op r
  | hand ops ih =>
      show isNF (mkAnd (normList ops)) = true
      refine mkAnd_isNF ?_
      rw [normList_eq_map]
      intro x hx
      obtain ⟨y, hy, rfl⟩ := List.mem_map.mp hx
      exact ih y hy
  | hor ops ih =>
      show isNF (mkOr (normList ops)) = true
      refine mkOr_isNF ?_
      rw [normList_eq_map]
      intro x hx
      obtain ⟨y, hy, rfl⟩ := List.mem_map.mp hx
      exact ih y hy
  | hnot e ih =>
      show isNF (match normalize e with | .not x => x | e2 => .not e2) = true
      cases hne : normalize e with
      | not x =>
          rw [hne] at ih
          have := (Bool.and_eq_true _ _).mp ih
          exact this.1
      | atom l op r => rw [hne] at ih; simpa [isNF, BoolExpr.isNotB] using ih
      | and ops => rw [hne] at ih; simpa [isNF, BoolExpr.isNotB] using ih
      | or ops => rw [hne] at ih; simpa [isNF, BoolExpr.isNotB] using ih
      | btrue => rfl
      | bfalse => rfl
  | htrue => rfl
  | hfalse => rfl

/-- Pointwise fixed normalization of a fixed list. -/
theorem normList_eq_self {ops : List BoolExpr} (h : ∀ x ∈ ops, normalize x = x) :
    normList ops = ops := by
  induction ops with
  | nil => rfl
  | cons x xs ih =>
      show normalize x :: normList xs = x :: xs
      rw [h x (List.mem_cons_self _ _), ih (fun y hy => h y (List.mem_cons_of_mem _ hy))]

/-- Expressions in normal form are fixed points of the normalizer. -/
theorem norm_eq_self : ∀ e : BoolExpr, isNF e = true → normalize e = e := by
  intro e
  induction e using BoolExpr.bexprInduction with
  | hatom l op r => intro h; exact normalizeAtom_eq_self h
  | hand ops ih =>
      intro h
      show mkAnd (normList ops) = .and ops
      rw [normList_eq_self (fun x hx => ih x hx (((isNF_and_iff ops).mp h).2.1 x hx))]
      exact mkAnd_eq_self h
  | hor ops ih =>
      intro h
      show mkOr (normList ops) = .or ops
      rw [normList_eq_self (fun x hx => ih x hx (((isNF_or_iff ops).mp h).2.1 x hx))]
      exact mkOr_eq_self h
  | hnot e ih =>
      intro h
      have h1 : isNF e = true := ((Bool.and_eq_true _ _).mp h).1
      have h2 : BoolExpr.isNotB e = false := by
        have := ((Bool.and_eq_true _ _).mp h).2
        simpa using this
      show (match normalize e with | .not x => x | e2 => .not e2) = .not e
      rw [ih h1]
      cases e with
      | not x => simp [BoolExpr.isNotB] at h2
      | atom l op r => rfl
      | and ops => rfl
      | or ops => rfl
      | btrue => rfl
      | bfalse => rfl
  | htrue => intro _; rfl
  | hfalse => intro _; rfl

/-- Idempotence of the boolean normalizer: normalizing twice is
normalizing once. -/
theorem normalize_idem (e : BoolExpr) : normalize (normalize e) = normalize e :=
  norm_eq_self _ (norm_isNF e)

mutual

/-- Field names referenced by a filter predicate (the variable references
of its atom operands). -/
def BoolExpr.fieldNames : BoolExpr → List String
  | .atom l _ r => l.varNames ++ r.varNames
  | .and ops => BoolExpr.fieldNamesList ops
  | .or ops => BoolExpr.fieldNamesList ops
  | .not e => BoolExpr.fieldNames e
  | .btrue => []
  | .bfalse => []

/-- Field names referenced by a list of predicates. -/
def BoolExpr.fieldNamesList : List BoolExpr → List String
  | [] => []
  | x :: xs => BoolExpr.fieldNames x ++ BoolExpr.fieldNamesList xs

end

/-- Computable subset test on field-name lists. -/
def subsetB (a b : List String) : Bool := a.all (fun x => b.contains x)

/-- `subsetB` decides list inclusion. -/
theorem subsetB_iff {a b : List String} : subsetB a b = true ↔ a ⊆ b := by
  simp [subsetB, List.all_eq_true, List.subset_def]

/--
Table algebra AST (the source `Table` variants): `invocation` is a device
function call carrying, as the field-name/type metadata the optimizer
reads from the type-checked AST, the list of its output field names;
`filtered`, `projection`, `compute`, `aggregation`, `sort` and `index`
are the operators of the algebra.
-/
inductive Table where
  | invocation (device : String) (fn : String) (outFields : List String)
      (inParams : List (String × Value))
  | filtered (t : Table) (filter : BoolExpr)
  | projection (t : Table) (fields : List String)
  | compute (t : Table) (field : String) (expr : Value)
  | aggregation (t : Table) (op : String) (field : Option String)
  | sort (t : Table) (field : String) (ascending : Bool)
  | index (t : Table) (idx : Value)
deriving Repr

/-- Whether a table is a projection node. -/
def Table.isProjection : Table → Bool
  | .projection _ _ => true
  | _ => false

/--
Modelled from the spec: the field names available on a table, derived
from the type-checker metadata — an invocation exposes its output fields,
a projection restricts to its field list, a compute adds its derived
field, an aggregation exposes its single implicit output field, and the
remaining operators are transparent.
-/
def availableFields : Table → List String
  | .invocation _ _ out _ => out
  | .filtered t _ => availableFields t
  | .projection _ fields => fields
  | .compute t field _ => field :: availableFields t
  | .aggregation _ op field =>
      match field with
      | some f => [f]
      | none => [op]
  | .sort t _ _ => availableFields t
  | .index t _ => availableFields t

/--
Modelled from the spec: smart projection constructor implementing the
projection-merge rules — `Projection(Projection(inner, innerFields),
outerFields)` with `outerFields ⊆ innerFields` drops the redundant inner
layer, and `Projection(Aggregation(inner, "count", none), ["count"])`
drops the projection made redundant by the aggregation output shape.
-/
def mkProjection : Table → List String → Table
  | .projection inner innerF, fields =>
      if subsetB fields innerF then mkProjection inner fields
      else .projection (.projection inner innerF) fields
  | .aggregation inner op fld, fields =>
      if decide (op = "count") && decide (fld = none) && decide (fields = ["count"]) then
        .aggregation inner op fld
      else .projection (.aggregation inner op fld) fields
  | t, fields => .projection t fields

/--
Modelled from the spec: smart filter constructor — a normalized-to-True
filter is eliminated; a filter above a `Projection(inner, fields)` whose
referenced field names are available on `inner` is relocated to apply
directly to `inner` and re-wrapped as
`Projection(Filtered(inner, filter), fields)`.
-/
def mkFiltered : Table → BoolExpr → Table
  | .projection inner fields, f =>
      if BoolExpr.isTrueB f then .projection inner fields
      else if subsetB (BoolExpr.fieldNames f) (availableFields inner) then
        .projection (mkFiltered inner f) fields
      else .filtered (.projection inner fields) f
  | t, f => if BoolExpr.isTrueB f then t else .filtered t f

/--
Modelled from the spec: bottom-up table normalization — children first,
filters through the boolean normalizer, then the projection-merge and
filter-relocation rules via the smart constructors.
-/
def optimizeTable : Table → Table
  | .invocation d f out ps => .invocation d f out ps
  | .filtered t f => mkFiltered (optimizeTable t) (normalize f)
  | .projection t fields => mkProjection (optimizeTable t) fields
  | .compute t fld e => .compute (optimizeTable t) fld e
  | .aggregation t op fld => .aggregation (optimizeTable t) op fld
  | .sort t fld a => .sort (optimizeTable t) fld a
  | .index t i => .index (optimizeTable t) i

/-- Table normal forms: every table rewrite rule is at a fixed point and
every contained filter is in boolean normal form. -/
def tNF : Table → Bool
  | .invocation _ _ _ _ => true
  | .filtered t f =>
      tNF t && isNF f && !(BoolExpr.isTrueB f) &&
      (match t with
       | .projection inner _ => !(subsetB (BoolExpr.fieldNames f) (availableFields inner))
       | _ => true)
  | .projection t fields =>
      tNF t &&
      (match t with
       | .projection _ innerF => !(subsetB fields innerF)
       | .aggregation _ op fld =>
           !(decide (op = "count") && decide (fld = none) && decide (fields = ["count"]))
       | _ => true)
  | .compute t _ _ => tNF t
  | .aggregation t _ _ => tNF t
  | .sort t _ _ => tNF t
  | .index t _ => tNF t

/-- Side condition of filtered-table normal form, as a function of the
child table. -/
def filterCond (t : Table) (f : BoolExpr) : Bool :=
  match t with
  | .projection inner _ => !(subsetB (BoolExpr.fieldNames f) (availableFields inner))
  | _ => true

/-- Side condition of projection normal form, as a function of the child
table. -/
def projCond (t : Table) (fields : List String) : Bool :=
  match t with
  | .projection _ innerF => !(subsetB fields innerF)
  | .aggregation _ op fld =>
      !(decide (op = "count") && decide (fld = none) && decide (fields = ["count"]))
  | _ => true

/-- `tNF` of a filtered table, refolded through `filterCond`. -/
theorem tNF_filtered_eq (t : Table) (f : BoolExpr) :
    tNF (.filtered t f) = (tNF t && isNF f && !(BoolExpr.isTrueB f) && filterCond t f) := by
  cases t <;> rfl

/-- `tNF` of a projection, refolded through `projCond`. -/
theorem tNF_projection_eq (t : Table) (fields : List String) :
    tNF (.projection t fields) = (tNF t && projCond t fields) := by
  cases t <;> rfl

/-- Build a filtered-table normal form from its four components. -/
theorem tNF_filtered_build {t : Table} {f : BoolExpr} (h1 : tNF t = true)
    (h2 : isNF f = true) (h3 : BoolExpr.isTrueB f = false)
    (h4 : filterCond t f = true) : tNF (.filtered t f) = true := by
  rw [tNF_filtered_eq, h1, h2, h3, h4]
  rfl

/-- Destruct a filtered-table normal form into its four components. -/
theorem tNF_filtered_destruct {t : Table} {f : BoolExpr}
    (h : tNF (.filtered t f) = true) :
    tNF t = true ∧ isNF f = true ∧ BoolExpr.isTrueB f = false ∧ filterCond t f = true := by
  rw [tNF_filtered_eq] at h
  simp only [Bool.and_eq_true, Bool.not_eq_true'] at h
  tauto

/-- Build a projection normal form from its two components. -/
theorem tNF_projection_build {t : Table} {fields : List String} (h1 : tNF t = true)
    (h2 : projCond t fields = true) : tNF (.projection t fields) = true := by
  rw [tNF_projection_eq, h1, h2]
  rfl

/-- Destruct a projection normal form into its two components. -/
theorem tNF_projection_destruct {t : Table} {fields : List String}
    (h : tNF (.projection t fields) = true) :
    tNF t = true ∧ projCond t fields = true := by
  rw [tNF_projection_eq] at h
  simp only [Bool.and_eq_true] at h
  exact h

/-- The result of the smart filter constructor is never a projection over
a relocatable filter, and never a collapsible projection child: its shape
satisfies both side conditions trivially unless stated. -/
theorem mkFiltered_not_proj_of_not_proj {inner : Table} {f : BoolExpr}
    (h : inner.isProjection = false) (hf : BoolExpr.isTrueB f = false) :
    mkFiltered inner f = .filtered inner f := by
  cases inner with
  | projection a b => simp [Table.isProjection] at h
  | invocation d fn out ps => show (if BoolExpr.isTrueB f then _ else _) = _; rw [if_neg (by simp [hf])]
  | filtered a b => show (if BoolExpr.isTrueB f then _ else _) = _; rw [if_neg (by simp [hf])]
  | compute a b c => show (if BoolExpr.isTrueB f then _ else _) = _; rw [if_neg (by simp [hf])]
  | aggregation a b c => show (if BoolExpr.isTrueB f then _ else _) = _; rw [if_neg (by simp [hf])]
  | sort a b c => show (if BoolExpr.isTrueB f then _ else _) = _; rw [if_neg (by simp [hf])]
  | index a b => show (if BoolExpr.isTrueB f then _ else _) = _; rw [if_neg (by simp [hf])]

/-- The smart projection constructor preserves table normal form. -/
theorem mkProjection_tNF : ∀ {t : Table}, tNF t = true →
    ∀ fields, tNF (mkProjection t fields) = true := by
  intro t
  induction t with
  | invocation d f out ps =>
      intro h fields
      exact tNF_projection_build h rfl
  | filtered t f iht =>
      intro h fields
      exact tNF_projection_build h rfl
  | projection inner innerF ih =>
      intro h fields
      have hinner : tNF inner = true := (tNF_projection_destruct h).1
      show tNF (if subsetB fields innerF then mkProjection inner fields
        else .projection (.projection inner innerF) fields) = true
      by_cases hsub : subsetB fields innerF = true
      · rw [if_pos hsub]
        exact ih hinner fields
      · rw [if_neg hsub]
        refine tNF_projection_build h ?_
        show (!(subsetB fields innerF)) = true
        rw [Bool.not_eq_true']
        exact Bool.eq_false_iff.mpr hsub
  | compute t fld e ih =>
      intro h fields
      exact tNF_projection_build h rfl
  | aggregation t op fld ih =>
      intro h fields
      show tNF (if decide (op = "count") && decide (fld = none) &&
          decide (fields = ["count"]) then .aggregation t op fld
        else .projection (.aggregation t op fld) fields) = true
      by_cases hc : (decide (op = "count") && decide (fld = none) &&
          decide (fields = ["count"])) = true
      · rw [if_pos hc]; exact h
      · rw [if_neg hc]
        refine tNF_projection_build h ?_
        show (!(decide (op = "count") && decide (fld = none) &&
          decide (fields = ["count"]))) = true
        rw [Bool.not_eq_true']
        exact Bool.eq_false_iff.mpr hc
  | sort t fld a ih =>
      intro h fields
      exact tNF_projection_build h rfl
  | index t i ih =>
      intro h fields
      exact tNF_projection_build h rfl

/-- The smart filter constructor preserves table normal form. -/
theorem mkFiltered_tNF : ∀ {t : Table}, tNF t = true →
    ∀ {f : BoolExpr}, isNF f = true → BoolExpr.isTrueB f = false →
      tNF (mkFiltered t f) = true := by
  intro t
  induction t with
  | projection inner fields ih =>
      intro h f hf ht
      have hinner : tNF inner = true := (tNF_projection_destruct h).1
      show tNF (if BoolExpr.isTrueB f then .projection inner fields
        else if subsetB (BoolExpr.fieldNames f) (availableFields inner) then
          .projection (mkFiltered inner f) fields
        else .filtered (.projection inner fields) f) = true
      rw [if_neg (by simp [ht])]
      by_cases hsub : subsetB (BoolExpr.fieldNames f) (availableFields inner) = true
      · rw [if_pos hsub]
        refine tNF_projection_build (ih hinner hf ht) ?_
        cases hin : inner with
        | projection inner2 innerF2 =>
            have hnsub : projCond (.projection inner2 innerF2) fields = true := by
              rw [hin] at h
              exact (tNF_projection_destruct h).2
            show projCond (if BoolExpr.isTrueB f then Table.projection inner2 innerF2
              else if subsetB (BoolExpr.fieldNames f) (availableFields inner2) then
                .projection (mkFiltered inner2 f) innerF2
              else .filtered (.projection inner2 innerF2) f) fields = true
            rw [if_neg (by simp [ht])]
            by_cases hsub2 : subsetB (BoolExpr.fieldNames f) (availableFields inner2) = true
            · rw [if_pos hsub2]
              exact hnsub
            · rw [if_neg hsub2]
              rfl
        | invocation d fn out ps =>
            rw [@mkFiltered_not_proj_of_not_proj (.invocation d fn out ps) f rfl ht]
            rfl
        | filtered t2 f2 =>
            rw [@mkFiltered_not_proj_of_not_proj (.filtered t2 f2) f rfl ht]
            rfl
        | compute t2 fld2 e2 =>
            rw [@mkFiltered_not_proj_of_not_proj (.compute t2 fld2 e2) f rfl ht]
            rfl
        | aggregation t2 op2 fld2 =>
            rw [@mkFiltered_not_proj_of_not_proj (.aggregation t2 op2 fld2) f rfl ht]
            rfl
        | sort t2 fld2 a2 =>
            rw [@mkFiltered_not_proj_of_not_proj (.sort t2 fld2 a2) f rfl ht]
            rfl
        | index t2 i2 =>
            rw [@mkFiltered_not_proj_of_not_proj (.index t2 i2) f rfl ht]
            rfl
      · rw [if_neg hsub]
        refine tNF_filtered_build h hf ht ?_
        show (!(subsetB (BoolExpr.fieldNames f) (availableFields inner))) = true
        rw [Bool.not_eq_true']
        exact Bool.eq_false_iff.mpr hsub
  | invocation d fn out ps =>
      intro h f hf ht
      rw [@mkFiltered_not_proj_of_not_proj (.invocation d fn out ps) f rfl ht]
      exact tNF_filtered_build h hf ht rfl
  | filtered t2 f2 ih =>
      intro h f hf ht
      rw [@mkFiltered_not_proj_of_not_proj (.filtered t2 f2) f rfl ht]
      exact tNF_filtered_build h hf ht rfl
  | compute t2 fld e ih =>
      intro h f hf ht
      rw [@mkFiltered_not_proj_of_not_proj (.compute t2 fld e) f rfl ht]
      exact tNF_filtered_build h hf ht rfl
  | aggregation t2 op fld ih =>
      intro h f hf ht
      rw [@mkFiltered_not_proj_of_not_proj (.aggregation t2 op fld) f rfl ht]
      exact tNF_filtered_build h hf ht rfl
  | sort t2 fld a ih =>
      intro h f hf ht
      rw [@mkFiltered_not_proj_of_not_proj (.sort t2 fld a) f rfl ht]
      exact tNF_filtered_build h hf ht rfl
  | index t2 i ih =>
      intro h f hf ht
      rw [@mkFiltered_not_proj_of_not_proj (.index t2 i) f rfl ht]
      exact tNF_filtered_build h hf ht rfl

/-- The smart filter constructor with a True filter eliminates the
filter. -/
theorem mkFiltered_true {t : Table} {f : BoolExpr} (h : BoolExpr.isTrueB f = true) :
    mkFiltered t f = t := by
  cases t <;> simp [mkFiltered, h]

/-- The table optimizer always lands in table normal form. -/
theorem optimizeTable_tNF : ∀ t : Table, tNF (optimizeTable t) = true := by
  intro t
  induction t with
  | invocation d f out ps => rfl
  | filtered t f ih =>
      show tNF (mkFiltered (optimizeTable t) (normalize f)) = true
      by_cases ht : BoolExpr.isTrueB (normalize f) = true
      · rw [mkFiltered_true ht]
        exact ih
      · exact mkFiltered_tNF ih (norm_isNF f) (by simpa using ht)
  | projection t fields ih => exact mkProjection_tNF ih fields
  | compute t fld e ih =>
      show tNF (.compute (optimizeTable t) fld e) = true
      exact ih
  | aggregation t op fld ih =>
      show tNF (.aggregation (optimizeTable t) op fld) = true
      exact ih
  | sort t fld a ih =>
      show tNF (.sort (optimizeTable t) fld a) = true
      exact ih
  | index t i ih =>
      show tNF (.index (optimizeTable t) i) = true
      exact ih

/-- A projection in table normal form is rebuilt unchanged. -/
theorem mkProjection_eq_self {t : Table} {fields : List String}
    (h : tNF (.projection t fields) = true) : mkProjection t fields = .projection t fields := by
  have hcond := (tNF_projection_destruct h).2
  cases t with
  | projection inner innerF =>
      show (if subsetB fields innerF then mkProjection inner fields
        else .projection (.projection inner innerF) fields) = _
      rw [if_neg ?_]
      show ¬ subsetB fields innerF = true
      have : (!(subsetB fields innerF)) = true := hcond
      simpa using this
  | aggregation inner op fld =>
      show (if decide (op = "count") && decide (fld = none) &&
          decide (fields = ["count"]) then Table.aggregation inner op fld
        else .projection (.aggregation inner op fld) fields) = _
      rw [if_neg ?_]
      have hcc : (!(decide (op = "count") && decide (fld = none) &&
        decide (fields = ["count"]))) = true := hcond
      rw [Bool.not_eq_true'] at hcc
      exact Bool.eq_false_iff.mp hcc
  | invocation d f out ps => rfl
  | filtered t2 f2 => rfl
  | compute t2 fld2 e2 => rfl
  | sort t2 fld2 a2 => rfl
  | index t2 i2 => rfl

/-- A filtered table in table normal form is rebuilt unchanged. -/
theorem mkFiltered_eq_self {t : Table} {f : BoolExpr}
    (h : tNF (.filtered t f) = true) : mkFiltered t f = .filtered t f := by
  obtain ⟨h1, h2, h3, h4⟩ := tNF_filtered_destruct h
  cases t with
  | projection inner fields =>
      show (if BoolExpr.isTrueB f then Table.projection inner fields
        else if subsetB (BoolExpr.fieldNames f) (availableFields inner) then
          .projection (mkFiltered inner f) fields
        else .filtered (.projection inner fields) f) = _
      rw [if_neg (by simp [h3]), if_neg ?_]
      have : (!(subsetB (BoolExpr.fieldNames f) (availableFields inner))) = true := h4
      simpa using this
  | invocation d fn out ps => exact mkFiltered_not_proj_of_not_proj rfl h3
  | filtered t2 f2 => exact mkFiltered_not_proj_of_not_proj rfl h3
  | compute t2 fld2 e2 => exact mkFiltered_not_proj_of_not_proj rfl h3
  | aggregation t2 op2 fld2 => exact mkFiltered_not_proj_of_not_proj rfl h3
  | sort t2 fld2 a2 => exact mkFiltered_not_proj_of_not_proj rfl h3
  | index t2 i2 => exact mkFiltered_not_proj_of_not_proj rfl h3

/-- Tables in normal form are fixed points of the table optimizer. -/
theorem optimizeTable_eq_self : ∀ {t : Table}, tNF t = true → optimizeTable t = t := by
  intro t
  induction t with
  | invocation d f out ps => intro _; rfl
  | filtered t f ih =>
      intro h
      obtain ⟨h1, h2, _, _⟩ := tNF_filtered_destruct h
      show mkFiltered (optimizeTable t) (normalize f) = .filtered t f
      rw [ih h1, norm_eq_self f h2]
      exact mkFiltered_eq_self h
  | projection t fields ih =>
      intro h
      show mkProjection (optimizeTable t) fields = .projection t fields
      rw [ih (tNF_projection_destruct h).1]
      exact mkProjection_eq_self h
  | compute t fld e ih =>
      intro h
      show Table.compute (optimizeTable t) fld e = _
      rw [ih h]
  | aggregation t op fld ih =>
      intro h
      show Table.aggregation (optimizeTable t) op fld = _
      rw [ih h]
  | sort t fld a ih =>
      intro h
      show Table.sort (optimizeTable t) fld a = _
      rw [ih h]
  | index t i ih =>
      intro h
      show Table.index (optimizeTable t) i = _
      rw [ih h]

/-- Idempotence of the table optimizer. -/
theorem optimizeTable_idem (t : Table) :
    optimizeTable (optimizeTable t) = optimizeTable t :=
  optimizeTable_eq_self (optimizeTable_tNF t)

/--
Action AST: the synthetic `notify` action (display only), or a real
named-parameter device action invocation.
-/
inductive Action where
  | notify
  | invocation (device : String) (fn : String) (inParams : List (String × Value))
deriving Repr

/-- Whether the action is the synthetic notify action. -/
def Action.isNotify : Action → Bool
  | .notify => true
  | _ => false

/--
Stream AST: `monitor` over a table with an optional explicit
field-selector list, stream-level projection, stream-level (statement)
filter, and the opaque timer leaves.
-/
inductive Stream where
  | monitor (t : Table) (fields : Option (List String))
  | projection (s : Stream) (fields : List String)
  | filtered (s : Stream) (filter : BoolExpr)
  | timer (base : String)
  | attimer (time : String)
deriving Repr

/--
Modelled from the spec: bottom-up stream normalization — the monitor
argument table and every filter are normalized in place; a filter
supplied directly to a monitor stays inside the monitor table argument,
and a statement-level filter after a monitor stays outside (the stream
walk never relocates filters across the monitor boundary).
-/
def optimizeStream : Stream → Stream
  | .monitor t sel => .monitor (optimizeTable t) sel
  | .projection s fields => .projection (optimizeStream s) fields
  | .filtered s f => .filtered (optimizeStream s) (normalize f)
  | .timer b => .timer b
  | .attimer t => .attimer t

/--
Modelled from the spec: canonical placement of a projection around a
monitor, decided by how the enclosing statement consumes the stream.  A
monitor of a projected table absorbs the field list into the monitor
field selector; if the consuming action is the synthetic notify action
and the field set is non-trivial the projection is kept outside the
monitor (`Projection(Monitor(table, fields), fields)`), and for a real
named-parameter action the wrapping projection is dropped
(`Monitor(table, fields)`).
-/
def factorStream (s : Stream) (isNotify : Bool) : Stream :=
  match s with
  | .monitor (.projection inner fields) none =>
      if isNotify && !(List.isEmpty fields) then
        .projection (.monitor inner (some fields)) fields
      else .monitor inner (some fields)
  | s => s

/--
Modelled from the spec: canonical placement of a projection over a
one-shot command table — for a real named-parameter action the outer
projection layers are dropped (the action selects needed parameters by
name); for notify the projection is kept.
-/
def factorTable : Table → Bool → Table
  | .projection inner _, false => factorTable inner false
  | t, _ => t

/-- Whether all actions of a statement are the synthetic notify action. -/
def allNotify (actions : List Action) : Bool := actions.all Action.isNotify

/-- Reactive rule statement (source `Rule(stream, actions)`), carrying
its statement-level annotation map. -/
structure Rule where
  stream : Stream
  actions : List Action
  annotations : List (String × String)
deriving Repr

/-- One-shot command statement (source `Command(table|none, actions)`),
carrying its statement-level annotation map. -/
structure Command where
  table : Option Table
  actions : List Action
  annotations : List (String × String)
deriving Repr

/-- Assignment statement (source `Assignment(name, table)`), carrying its
statement-level annotation map. -/
structure Assignment where
  name : String
  value : Table
  annotations : List (String × String)
deriving Repr

/-- Executable statements (source `ExecutableStatement = Assignment |
Rule | Command`). -/
inductive Statement where
  | rule (r : Rule)
  | command (c : Command)
  | assignment (a : Assignment)
deriving Repr

/-- Statement-level annotation map of a statement. -/
def Statement.annotations : Statement → List (String × String)
  | .rule r => r.annotations
  | .command c => c.annotations
  | .assignment a => a.annotations

/-- Modelled from the spec: per-rule optimization — normalize the stream
bottom-up, then factor the monitor/projection placement by the consuming
action; actions and annotations pass through untouched. -/
def optimizeRule (r : Rule) : Rule :=
  { stream := factorStream (optimizeStream r.stream) (allNotify r.actions),
    actions := r.actions,
    annotations := r.annotations }

/-- Modelled from the spec: per-command optimization — normalize the
table bottom-up, then factor the outer projection by the consuming
action; actions and annotations pass through untouched. -/
def optimizeCommand (c : Command) : Command :=
  { table := c.table.map (fun t => factorTable (optimizeTable t) (allNotify c.actions)),
    actions := c.actions,
    annotations := c.annotations }

/-- Modelled from the spec: per-assignment optimization — normalize the
assigned table. -/
def optimizeAssignment (a : Assignment) : Assignment :=
  { name := a.name, value := optimizeTable a.value, annotations := a.annotations }

/-- Modelled from the spec: per-statement optimization. -/
def optimizeStatement : Statement → Statement
  | .rule r => .rule (optimizeRule r)
  | .command c => .command (optimizeCommand c)
  | .assignment a => .assignment (optimizeAssignment a)

/-- Declaration bodies: a reusable table, stream or action expression. -/
inductive DeclValue where
  | table (t : Table)
  | stream (s : Stream)
  | action (a : Action)
deriving Repr

/-- Named reusable declaration (source `Declaration`), carrying its
annotation map. -/
structure Declaration where
  name : String
  value : DeclValue
  annotations : List (String × String)
deriving Repr

/-- Modelled from the spec: declaration bodies are walked by the same
bottom-up normalizers (no action context applies). -/
def optimizeDeclaration (d : Declaration) : Declaration :=
  { name := d.name,
    value :=
      match d.value with
      | .table t => .table (optimizeTable t)
      | .stream s => .stream (optimizeStream s)
      | .action a => .action a,
    annotations := d.annotations }

/--
Program AST (source `Program` of `lib/syntax_api.ts`): locally defined
classes (kept opaque as names), declarations, executable statements, and
an optional principal.
-/
structure Program where
  classes : List String
  declarations : List Declaration
  rules : List Statement
  principal : Option Value
deriving Repr

/--
Modelled from the spec: `optimizeProgram(program) -> Program | empty` —
every declaration body and every executable statement is normalized to
its fixed point; if the program has no executable content at all the
result is empty (`none`).  The spec leaves the policy for statements that
normalize to nothing open, so this model never drops a statement; the
empty result therefore arises exactly for programs with no declarations
and no statements.
-/
def optimizeProgram (p : Program) : Option Program :=
  if p.declarations.isEmpty && p.rules.isEmpty then none
  else
    some { classes := p.classes,
           declarations := p.declarations.map optimizeDeclaration,
           rules := p.rules.map optimizeStatement,
           principal := p.principal }

/--
Top-level inputs (source `Input` of `lib/syntax_api.ts`): an executable
`Program`, a `Library` of classes and datasets, or a `PermissionRule`.
The library and permission-rule payloads are irrelevant to optimization
and kept as opaque summaries.
-/
inductive Input where
  | program (p : Program)
  | library (classes : List String) (datasets : List String)
  | permissionRule (principal : BoolExpr) (query : String) (action : String)
deriving Repr

/-- Whether the input is a `Program`. -/
def Input.isProgram : Input → Bool
  | .program _ => true
  | _ => false

/--
From `lib/syntax_api.ts` lines 873-875 and 1011-1013: the base
`Input.optimize` returns the receiver unchanged (never null); only
`Program` overrides it, delegating to `Optimizer.optimizeProgram`.
-/
def Input.optimize : Input → Option Input
  | .program p => (optimizeProgram p).map Input.program
  | .library cs ds => some (.library cs ds)
  | .permissionRule pr q a => some (.permissionRule pr q a)

/--
From `lib/syntax_api.ts` lines 76-93 (`parse`): the post-parsing step of
the top-level parse API.  The argument stands for the `Ast.Input`
produced by the grammar (the lexer/parser themselves are external
collaborators); `parse` calls `input.optimize()` and throws
`Program is empty after optimization` when the result is empty,
returning the optimized input otherwise.
-/
def parse (input : Input) : Except String Input :=
  match input.optimize with
  | some o => Except.ok o
  | none => Except.error "Program is empty after optimization"

/-- Stream normal forms: all contained tables and filters are at their
fixed points. -/
def sNF : Stream → Bool
  | .monitor t _ => tNF t
  | .projection s _ => sNF s
  | .filtered s f => sNF s && isNF f
  | .timer _ => true
  | .attimer _ => true

/-- The stream walk always lands in stream normal form. -/
theorem optimizeStream_sNF : ∀ s : Stream, sNF (optimizeStream s) = true := by
  intro s
  induction s with
  | monitor t sel => exact optimizeTable_tNF t
  | projection s fields ih => exact ih
  | filtered s f ih =>
      show (sNF (optimizeStream s) && isNF (normalize f)) = true
      rw [ih, norm_isNF f]
      rfl
  | timer b => rfl
  | attimer t => rfl

/-- Streams in normal form are fixed points of the stream walk. -/
theorem optimizeStream_eq_self : ∀ {s : Stream}, sNF s = true → optimizeStream s = s := by
  intro s
  induction s with
  | monitor t sel =>
      intro h
      show Stream.monitor (optimizeTable t) sel = _
      rw [optimizeTable_eq_self h]
  | projection s fields ih =>
      intro h
      show Stream.projection (optimizeStream s) fields = _
      rw [ih h]
  | filtered s f ih =>
      intro h
      obtain ⟨h1, h2⟩ := Bool.and_eq_true_iff.mp h
      show Stream.filtered (optimizeStream s) (normalize f) = _
      rw [ih h1, norm_eq_self f h2]
  | timer b => intro _; rfl
  | attimer t => intro _; rfl

/-- Idempotence of the stream walk. -/
theorem optimizeStream_idem (s : Stream) :
    optimizeStream (optimizeStream s) = optimizeStream s :=
  optimizeStream_eq_self (optimizeStream_sNF s)

/-- Monitor/projection factoring preserves stream normal form. -/
theorem factorStream_sNF : ∀ {s : Stream}, sNF s = true →
    ∀ b, sNF (factorStream s b) = true := by
  intro s h b
  cases s with
  | monitor t sel =>
      cases t with
      | projection inner fields =>
          cases sel with
          | none =>
              have hinner : tNF inner = true := (tNF_projection_destruct h).1
              show sNF (if b && !(List.isEmpty fields) then
                .projection (.monitor inner (some fields)) fields
                else .monitor inner (some fields)) = true
              by_cases hb : (b && !(List.isEmpty fields)) = true
              · rw [if_pos hb]; exact hinner
              · rw [if_neg hb]; exact hinner
          | some sel2 => exact h
      | invocation d fn out ps => exact h
      | filtered t2 f2 => exact h
      | compute t2 fld2 e2 => exact h
      | aggregation t2 op2 fld2 => exact h
      | sort t2 fld2 a2 => exact h
      | index t2 i2 => exact h
  | projection s2 fields => exact h
  | filtered s2 f2 => exact h
  | timer b2 => exact h
  | attimer t2 => exact h

/-- Monitor/projection factoring is idempotent. -/
theorem factorStream_factorStream (s : Stream) (b : Bool) :
    factorStream (factorStream s b) b = factorStream s b := by
  cases s with
  | monitor t sel =>
      cases t with
      | projection inner fields =>
          cases sel with
          | none =>
              show factorStream (if b && !(List.isEmpty fields) then
                .projection (.monitor inner (some fields)) fields
                else .monitor inner (some fields)) b =
                (if b && !(List.isEmpty fields) then
                  Stream.projection (.monitor inner (some fields)) fields
                 else .monitor inner (some fields))
              by_cases hb : (b && !(List.isEmpty fields)) = true
              · rw [if_pos hb]; rfl
              · rw [if_neg hb]; cases inner <;> rfl
          | some sel2 => cases inner <;> rfl
      | invocation d fn out ps => rfl
      | filtered t2 f2 => rfl
      | compute t2 fld2 e2 => rfl
      | aggregation t2 op2 fld2 => rfl
      | sort t2 fld2 a2 => rfl
      | index t2 i2 => rfl
  | projection s2 fields => rfl
  | filtered s2 f2 => rfl
  | timer b2 => rfl
  | attimer t2 => rfl

/-- Command-level factoring with a notify action is the identity. -/
theorem factorTable_true (t : Table) : factorTable t true = t := by
  cases t <;> rfl

/-- Command-level factoring for a real action never leaves an outer
projection. -/
theorem factorTable_false_not_proj : ∀ t : Table,
    (factorTable t false).isProjection = false := by
  intro t
  induction t with
  | projection inner fields ih => exact ih
  | invocation d fn out ps => rfl
  | filtered t2 f2 ih => rfl
  | compute t2 fld2 e2 ih => rfl
  | aggregation t2 op2 fld2 ih => rfl
  | sort t2 fld2 a2 ih => rfl
  | index t2 i2 ih => rfl

/-- A non-projection table is untouched by command-level factoring. -/
theorem factorTable_eq_self_of_not_proj {t : Table} (h : t.isProjection = false)
    (b : Bool) : factorTable t b = t := by
  cases b with
  | true => exact factorTable_true t
  | false =>
      cases t with
      | projection inner fields => simp [Table.isProjection] at h
      | invocation d fn out ps => rfl
      | filtered t2 f2 => rfl
      | compute t2 fld2 e2 => rfl
      | aggregation t2 op2 fld2 => rfl
      | sort t2 fld2 a2 => rfl
      | index t2 i2 => rfl

/-- Command-level factoring preserves table normal form. -/
theorem factorTable_tNF : ∀ {t : Table}, tNF t = true →
    ∀ b, tNF (factorTable t b) = true := by
  intro t
  induction t with
  | projection inner fields ih =>
      intro h b
      cases b with
      | true => rw [factorTable_true]; exact h
      | false => exact ih (tNF_projection_destruct h).1 false
  | invocation d fn out ps => intro h b; cases b <;> exact h
  | filtered t2 f2 ih => intro h b; cases b <;> exact h
  | compute t2 fld2 e2 ih => intro h b; cases b <;> exact h
  | aggregation t2 op2 fld2 ih => intro h b; cases b <;> exact h
  | sort t2 fld2 a2 ih => intro h b; cases b <;> exact h
  | index t2 i2 ih => intro h b; cases b <;> exact h

/-- Command-level factoring is idempotent. -/
theorem factorTable_factorTable (t : Table) (b : Bool) :
    factorTable (factorTable t b) b = factorTable t b := by
  cases b with
  | true => rw [factorTable_true, factorTable_true]
  | false => exact factorTable_eq_self_of_not_proj (factorTable_false_not_proj t) false

/-- Idempotence of per-rule optimization. -/
theorem optimizeRule_idem (r : Rule) : optimizeRule (optimizeRule r) = optimizeRule r := by
  show Rule.mk
      (factorStream (optimizeStream (factorStream (optimizeStream r.stream)
        (allNotify r.actions))) (allNotify r.actions)) r.actions r.annotations = _
  rw [optimizeStream_eq_self (factorStream_sNF (optimizeStream_sNF r.stream) _)]
  rw [factorStream_factorStream]
  rfl

/-- Idempotence of per-command optimization. -/
theorem optimizeCommand_idem (c : Command) :
    optimizeCommand (optimizeCommand c) = optimizeCommand c := by
  cases c with
  | mk tab acts ann =>
      cases tab with
      | none => rfl
      | some t =>
          show Command.mk
              (some (factorTable (optimizeTable (factorTable (optimizeTable t)
                (allNotify acts))) (allNotify acts))) acts ann =
            Command.mk (some (factorTable (optimizeTable t) (allNotify acts))) acts ann
          rw [optimizeTable_eq_self (factorTable_tNF (optimizeTable_tNF t) _)]
          rw [factorTable_factorTable]

/-- Idempotence of per-assignment optimization. -/
theorem optimizeAssignment_idem (a : Assignment) :
    optimizeAssignment (optimizeAssignment a) = optimizeAssignment a := by
  show Assignment.mk a.name (optimizeTable (optimizeTable a.value)) a.annotations = _
  rw [optimizeTable_idem]
  rfl

/-- Idempotence of per-statement optimization. -/
theorem optimizeStatement_idem (s : Statement) :
    optimizeStatement (optimizeStatement s) = optimizeStatement s := by
  cases s with
  | rule r =>
      show Statement.rule (optimizeRule (optimizeRule r)) = _
      rw [optimizeRule_idem]
      rfl
  | command c =>
      show Statement.command (optimizeCommand (optimizeCommand c)) = _
      rw [optimizeCommand_idem]
      rfl
  | assignment a =>
      show Statement.assignment (optimizeAssignment (optimizeAssignment a)) = _
      rw [optimizeAssignment_idem]
      rfl

/-- Idempotence of per-declaration optimization. -/
theorem optimizeDeclaration_idem (d : Declaration) :
    optimizeDeclaration (optimizeDeclaration d) = optimizeDeclaration d := by
  cases d with
  | mk name value ann =>
      cases value with
      | table t =>
          show Declaration.mk name (.table (optimizeTable (optimizeTable t))) ann = _
          rw [optimizeTable_idem]
          rfl
      | stream s =>
          show Declaration.mk name (.stream (optimizeStream (optimizeStream s))) ann = _
          rw [optimizeStream_idem]
          rfl
      | action a => rfl

/-- The program optimizer is idempotent on its non-empty results. -/
theorem optimizeProgram_idem {p q : Program} (h : optimizeProgram p = some q) :
    optimizeProgram q = some q := by
  unfold optimizeProgram at h ⊢
  by_cases hemp : (p.declarations.isEmpty && p.rules.isEmpty) = true
  · rw [if_pos hemp] at h
    cases h
  · rw [if_neg hemp] at h
    obtain rfl : Program.mk p.classes (p.declarations.map optimizeDeclaration)
        (p.rules.map optimizeStatement) p.principal = q := by
      injection h
    have hemp2 : (((p.declarations.map optimizeDeclaration).isEmpty &&
        (p.rules.map optimizeStatement).isEmpty)) = false := by
      cases hd : p.declarations with
      | nil =>
          cases hr : p.rules with
          | nil => rw [hd, hr] at hemp; simp at hemp
          | cons a t => simp [List.isEmpty]
      | cons a t => simp [List.isEmpty]
    rw [if_neg (by simp [hemp2])]
    simp only [Option.some.injEq]
    have hdecl : (p.declarations.map optimizeDeclaration).map optimizeDeclaration =
        p.declarations.map optimizeDeclaration := by
      rw [List.map_map]
      exact List.map_congr_left (fun x _ => optimizeDeclaration_idem x)
    have hrules : (p.rules.map optimizeStatement).map optimizeStatement =
        p.rules.map optimizeStatement := by
      rw [List.map_map]
      exact List.map_congr_left (fun x _ => optimizeStatement_idem x)
    simp only [hdecl, hrules]

/-- Join strings with a separator. -/
def joinStr (sep : String) : List String → String
  | [] => ""
  | [x] => x
  | x :: xs => x ++ sep ++ joinStr sep xs

mutual

/-- Deterministic rendering of a filter predicate back to source text. -/
def BoolExpr.render : BoolExpr → String
  | .atom l op r => Value.render l ++ " " ++ CompOp.render op ++ " " ++ Value.render r
  | .and ops => "(" ++ BoolExpr.renderSep " && " ops ++ ")"
  | .or ops => "(" ++ BoolExpr.renderSep " || " ops ++ ")"
  | .not e => "!(" ++ BoolExpr.render e ++ ")"
  | .btrue => "true"
  | .bfalse => "false"

/-- Separator-joined rendering of an operand list. -/
def BoolExpr.renderSep (sep : String) : List BoolExpr → String
  | [] => ""
  | [e] => BoolExpr.render e
  | e :: es => BoolExpr.render e ++ sep ++ BoolExpr.renderSep sep es

end

/-- Rendering of invocation input parameters. -/
def renderParams (ps : List (String × Value)) : String :=
  joinStr ", " (ps.map (fun p => p.1 ++ "=" ++ Value.render p.2))

/-- Deterministic rendering of a table back to source text. -/
def Table.render : Table → String
  | .invocation d fn _ ps => "@" ++ d ++ "." ++ fn ++ "(" ++ renderParams ps ++ ")"
  | .filtered t f => Table.render t ++ " filter " ++ BoolExpr.render f
  | .projection t fields => "[" ++ joinStr ", " fields ++ "] of " ++ Table.render t
  | .compute t fld e => "[" ++ Value.render e ++ " as " ++ fld ++ "] of " ++ Table.render t
  | .aggregation t op fld =>
      op ++ "(" ++ (match fld with | some f => f ++ " of " | none => "") ++ Table.render t ++ ")"
  | .sort t fld asc =>
      "sort(" ++ fld ++ (if asc then " asc" else " desc") ++ " of " ++ Table.render t ++ ")"
  | .index t i => Table.render t ++ "[" ++ Value.render i ++ "]"

/-- Deterministic rendering of a stream back to source text. -/
def Stream.render : Stream → String
  | .monitor t sel =>
      "monitor(" ++
        (match sel with | some fs => joinStr ", " fs ++ " of " | none => "") ++
        Table.render t ++ ")"
  | .projection s fields => "[" ++ joinStr ", " fields ++ "] of " ++ Stream.render s
  | .filtered s f => Stream.render s ++ " filter " ++ BoolExpr.render f
  | .timer b => "timer(" ++ b ++ ")"
  | .attimer t => "attimer(" ++ t ++ ")"

/-- Deterministic rendering of an action back to source text. -/
def Action.render : Action → String
  | .notify => "notify"
  | .invocation d fn ps => "@" ++ d ++ "." ++ fn ++ "(" ++ renderParams ps ++ ")"

/-- Rendering of a statement-level annotation map. -/
def renderAnnotations (ann : List (String × String)) : String :=
  joinStr "" (ann.map (fun kv => " #[" ++ kv.1 ++ "=" ++ kv.2 ++ "]"))

/-- Deterministic rendering of a statement back to source text. -/
def Statement.render : Statement → String
  | .rule r =>
      Stream.render r.stream ++ " => " ++ joinStr ", " (r.actions.map Action.render) ++
        renderAnnotations r.annotations ++ ";"
  | .command c =>
      (match c.table with | some t => Table.render t ++ " => " | none => "") ++
        joinStr ", " (c.actions.map Action.render) ++ renderAnnotations c.annotations ++ ";"
  | .assignment a =>
      "let " ++ a.name ++ " = " ++ Table.render a.value ++
        renderAnnotations a.annotations ++ ";"

/-- Deterministic rendering of a declaration back to source text. -/
def Declaration.render (d : Declaration) : String :=
  "let " ++ d.name ++ " = " ++
    (match d.value with
     | .table t => Table.render t
     | .stream s => Stream.render s
     | .action a => Action.render a) ++
    renderAnnotations d.annotations ++ ";"

/-- From `lib/syntax_api.ts` (`Input.prettyprint` delegating to the
pretty-printer, an external collaborator): deterministic rendering of a
program back to source text, one statement per line. -/
def Program.prettyprint (p : Program) : String :=
  joinStr "\n" (p.classes ++ p.declarations.map Declaration.render ++
    p.rules.map Statement.render)

mutual

/-- Exact source texts of all literal constants in a filter. -/
def BoolExpr.litTexts : BoolExpr → List String
  | .atom l _ r => Value.litTexts l ++ Value.litTexts r
  | .and ops => BoolExpr.litTextsList ops
  | .or ops => BoolExpr.litTextsList ops
  | .not e => BoolExpr.litTexts e
  | .btrue => []
  | .bfalse => []

/-- Literal texts of all filters in a list. -/
def BoolExpr.litTextsList : List BoolExpr → List String
  | [] => []
  | x :: xs => BoolExpr.litTexts x ++ BoolExpr.litTextsList xs

end

/-- Exact source texts of all literal constants in a table. -/
def Table.litTexts : Table → List String
  | .invocation _ _ _ ps => Value.litTextsList (ps.map Prod.snd)
  | .filtered t f => Table.litTexts t ++ BoolExpr.litTexts f
  | .projection t _ => Table.litTexts t
  | .compute t _ e => Table.litTexts t ++ Value.litTexts e
  | .aggregation t _ _ => Table.litTexts t
  | .sort t _ _ => Table.litTexts t
  | .index t i => Table.litTexts t ++ Value.litTexts i

/-- Exact source texts of all literal constants in a stream. -/
def Stream.litTexts : Stream → List String
  | .monitor t _ => Table.litTexts t
  | .projection s _ => Stream.litTexts s
  | .filtered s f => Stream.litTexts s ++ BoolExpr.litTexts f
  | .timer _ => []
  | .attimer _ => []

/-- Exact source texts of all literal constants in an action. -/
def Action.litTexts : Action → List String
  | .notify => []
  | .invocation _ _ ps => Value.litTextsList (ps.map Prod.snd)

/-- Exact source texts of all literal constants in a statement. -/
def Statement.litTexts : Statement → List String
  | .rule r => Stream.litTexts r.stream ++ (r.actions.map Action.litTexts).flatten
  | .command c =>
      (match c.table with | some t => Table.litTexts t | none => []) ++
        (c.actions.map Action.litTexts).flatten
  | .assignment a => Table.litTexts a.value

/-- Membership in the literal texts of an operand list. -/
theorem mem_litTextsList {t : String} {l : List BoolExpr} :
    t ∈ BoolExpr.litTextsList l ↔ ∃ x ∈ l, t ∈ BoolExpr.litTexts x := by
  induction l with
  | nil => simp [BoolExpr.litTextsList]
  | cons x xs ih =>
      show t ∈ BoolExpr.litTexts x ++ BoolExpr.litTextsList xs ↔ _
      simp only [List.mem_append, ih]
      constructor
      · rintro (h | ⟨y, hy, ht⟩)
        · exact ⟨x, List.mem_cons_self _ _, h⟩
        · exact ⟨y, List.mem_cons_of_mem _ hy, ht⟩
      · rintro ⟨y, hy, ht⟩
        rcases List.mem_cons.mp hy with rfl | hy
        · exact Or.inl ht
        · exact Or.inr ⟨y, hy, ht⟩

/-- Membership in the literal texts of a value list. -/
theorem mem_valueLitTextsList {t : String} {l : List Value} :
    t ∈ Value.litTextsList l ↔ ∃ v ∈ l, t ∈ Value.litTexts v := by
  induction l with
  | nil => simp [Value.litTextsList]
  | cons v vs ih =>
      show t ∈ Value.litTexts v ++ Value.litTextsList vs ↔ _
      simp only [List.mem_append, ih]
      constructor
      · rintro (h | ⟨w, hw, ht⟩)
        · exact ⟨v, List.mem_cons_self _ _, h⟩
        · exact ⟨w, List.mem_cons_of_mem _ hw, ht⟩
      · rintro ⟨w, hw, ht⟩
        rcases List.mem_cons.mp hw with rfl | hw
        · exact Or.inl ht
        · exact Or.inr ⟨w, hw, ht⟩

/-- Atom normalization invents no literal text. -/
theorem normalizeAtom_litTexts {s : String} (l : Value) (op : CompOp) (r : Value)
    (h : s ∈ BoolExpr.litTexts (normalizeAtom l op r)) :
    s ∈ BoolExpr.litTexts (.atom l op r) := by
  unfold normalizeAtom at h
  by_cases h1 : (op.isReflexiveTrue && decide (l = r)) = true
  · rw [if_pos h1] at h
    simp [BoolExpr.litTexts] at h
  · rw [if_neg h1] at h
    by_cases h2 : (l.isConst && r.isConst) = true
    · rw [if_pos h2] at h
      cases hev : evalComp l op r with
      | none => rw [hev] at h; exact h
      | some b => rw [hev] at h; cases b <;> simp [BoolExpr.litTexts] at h
    · rw [if_neg h2] at h
      by_cases h3 : (op.isOrdering && l.isConst && r.isComputed) = true
      · rw [if_pos h3] at h
        show s ∈ Value.litTexts l ++ Value.litTexts r
        have : s ∈ Value.litTexts r ++ Value.litTexts l := h
        rw [List.mem_append] at this ⊢
        exact this.symm
      · rw [if_neg h3] at h
        exact h

/-- Flattening invents no literal text. -/
theorem flattenAnd_litTexts {s : String} {ns : List BoolExpr}
    (h : s ∈ BoolExpr.litTextsList (flattenAnd ns)) : s ∈ BoolExpr.litTextsList ns := by
  obtain ⟨y, hy, hs⟩ := mem_litTextsList.mp h
  rcases mem_flattenAnd hy with ⟨hmem, _⟩ | ⟨ops, hin, hyops⟩
  · exact mem_litTextsList.mpr ⟨y, hmem, hs⟩
  · refine mem_litTextsList.mpr ⟨.and ops, hin, ?_⟩
    show s ∈ BoolExpr.litTextsList ops
    exact mem_litTextsList.mpr ⟨y, hyops, hs⟩

/-- Flattening invents no literal text (disjunction). -/
theorem flattenOr_litTexts {s : String} {ns : List BoolExpr}
    (h : s ∈ BoolExpr.litTextsList (flattenOr ns)) : s ∈ BoolExpr.litTextsList ns := by
  obtain ⟨y, hy, hs⟩ := mem_litTextsList.mp h
  rcases mem_flattenOr hy with ⟨hmem, _⟩ | ⟨ops, hin, hyops⟩
  · exact mem_litTextsList.mpr ⟨y, hmem, hs⟩
  · refine mem_litTextsList.mpr ⟨.or ops, hin, ?_⟩
    show s ∈ BoolExpr.litTextsList ops
    exact mem_litTextsList.mpr ⟨y, hyops, hs⟩

/-- Flushing a run invents no literal text. -/
theorem flushRun_litTexts {s : String} (l : Value) (op : CompOp) (r : Value)
    (acc : List Value) (h : s ∈ BoolExpr.litTexts (flushRun l op r acc)) :
    s ∈ BoolExpr.litTexts (.atom l op r) ∨ s ∈ Value.litTextsList acc := by
  cases acc with
  | nil => exact Or.inl h
  | cons a as =>
      rw [flushRun_cons_eq] at h
      show s ∈ Value.litTexts l ++ Value.litTexts r ∨ _
      have : s ∈ Value.litTexts l ++ Value.litTextsList (r :: a :: as) := h
      rw [List.mem_append] at this
      rcases this with hl | hr
      · exact Or.inl (List.mem_append.mpr (Or.inl hl))
      · have : s ∈ Value.litTexts r ++ Value.litTextsList (a :: as) := hr
        rw [List.mem_append] at this
        rcases this with h1 | h2
        · exact Or.inl (List.mem_append.mpr (Or.inr h1))
        · exact Or.inr h2

/-- Value-list literal texts distribute over append. -/
theorem valueLitTextsList_append (a b : List Value) :
    Value.litTextsList (a ++ b) = Value.litTextsList a ++ Value.litTextsList b := by
  induction a with
  | nil => rfl
  | cons v vs ih =>
      show Value.litTexts v ++ Value.litTextsList (vs ++ b) = _
      rw [ih]
      show _ = (Value.litTexts v ++ Value.litTextsList vs) ++ _
      rw [List.append_assoc]

/-- Merging invents no literal text (paired induction). -/
theorem mergeRuns_litTexts_strong :
    ∀ n : Nat,
      (∀ s : List BoolExpr, s.length ≤ n →
        ∀ t ∈ BoolExpr.litTextsList (mergeRuns s), t ∈ BoolExpr.litTextsList s) ∧
      (∀ (l : Value) (op : CompOp) (r : Value) (acc : List Value) (rest : List BoolExpr),
        rest.length ≤ n →
        ∀ t ∈ BoolExpr.litTextsList (mergeRunsAux l op r acc rest),
          t ∈ BoolExpr.litTexts (.atom l op r) ∨ t ∈ Value.litTextsList acc ∨
            t ∈ BoolExpr.litTextsList rest) := by
  intro n
  induction n with
  | zero =>
      constructor
      · intro s hs t ht
        rw [List.length_eq_zero.mp (Nat.le_zero.mp hs), mergeRuns_nil] at ht
        simp [BoolExpr.litTextsList] at ht
      · intro l op r acc rest hs t ht
        rw [List.length_eq_zero.mp (Nat.le_zero.mp hs), mergeRunsAux_nil] at ht
        obtain ⟨y, hy, hty⟩ := mem_litTextsList.mp ht
        rcases List.mem_singleton.mp hy with rfl
        rcases flushRun_litTexts l op r acc hty with h | h
        · exact Or.inl h
        · exact Or.inr (Or.inl h)
  | succ n ih =>
      constructor
      · intro s hs t ht
        cases s with
        | nil => rw [mergeRuns_nil] at ht; simp [BoolExpr.litTextsList] at ht
        | cons x rest =>
            have hrest : rest.length ≤ n := by
              simpa using Nat.succ_le_succ_iff.mp hs
            by_cases hx : ∃ l op r, x = BoolExpr.atom l op r
            · obtain ⟨l, op, r, rfl⟩ := hx
              by_cases hm : (CompOp.memberOp op).isSome = true
              · rw [mergeRuns_cons_mergeable hm] at ht
                rcases ih.2 l op r [] rest hrest t ht with h | h | h
                · exact List.mem_append.mpr (Or.inl h)
                · simp [Value.litTextsList] at h
                · exact List.mem_append.mpr (Or.inr h)
              · rw [mergeRuns_cons_not_mergeable (by simpa using hm)] at ht
                obtain ⟨y, hy, hty⟩ := mem_litTextsList.mp ht
                rcases List.mem_cons.mp hy with rfl | hy
                · exact List.mem_append.mpr (Or.inl hty)
                · exact List.mem_append.mpr
                    (Or.inr (ih.1 rest hrest t (mem_litTextsList.mpr ⟨y, hy, hty⟩)))
            · rw [mergeRuns_cons_not_atom (not_atom_of_not_exists hx)] at ht
              obtain ⟨y, hy, hty⟩ := mem_litTextsList.mp ht
              rcases List.mem_cons.mp hy with rfl | hy
              · exact List.mem_append.mpr (Or.inl hty)
              · exact List.mem_append.mpr
                  (Or.inr (ih.1 rest hrest t (mem_litTextsList.mpr ⟨y, hy, hty⟩)))
      · intro l op r acc rest hs t ht
        cases rest with
        | nil =>
            rw [mergeRunsAux_nil] at ht
            obtain ⟨y, hy, hty⟩ := mem_litTextsList.mp ht
            rcases List.mem_singleton.mp hy with rfl
            rcases flushRun_litTexts l op r acc hty with h | h
            · exact Or.inl h
            · exact Or.inr (Or.inl h)
        | cons x rest2 =>
            have hrest : rest2.length ≤ n := by
              simpa using Nat.succ_le_succ_iff.mp hs
            by_cases hx : ∃ l2 op2 r2, x = BoolExpr.atom l2 op2 r2
            · obtain ⟨l2, op2, r2, rfl⟩ := hx
              by_cases hj : l2 = l ∧ op2 = op
              · rw [mergeRunsAux_cons_join hj.1 hj.2] at ht
                rcases ih.2 l op r (acc ++ [r2]) rest2 hrest t ht with h | h | h
                · exact Or.inl h
                · rw [valueLitTextsList_append] at h
                  rcases List.mem_append.mp h with h | h
                  · exact Or.inr (Or.inl h)
                  · refine Or.inr (Or.inr (List.mem_append.mpr (Or.inl ?_)))
                    show t ∈ Value.litTexts l2 ++ Value.litTexts r2
                    refine List.mem_append.mpr (Or.inr ?_)
                    simpa [Value.litTextsList] using h
                · exact Or.inr (Or.inr (List.mem_append.mpr (Or.inr h)))
              · rw [mergeRunsAux_cons_nojoin hj] at ht
                obtain ⟨y, hy, hty⟩ := mem_litTextsList.mp ht
                rcases List.mem_cons.mp hy with rfl | hy
                · rcases flushRun_litTexts l op r acc hty with h | h
                  · exact Or.inl h
                  · exact Or.inr (Or.inl h)
                · by_cases hm2 : (CompOp.memberOp op2).isSome = true
                  · rw [if_pos hm2] at hy
                    rcases ih.2 l2 op2 r2 [] rest2 hrest t
                        (mem_litTextsList.mpr ⟨y, hy, hty⟩) with h | h | h
                    · exact Or.inr (Or.inr (List.mem_append.mpr (Or.inl h)))
                    · simp [Value.litTextsList] at h
                    · exact Or.inr (Or.inr (List.mem_append.mpr (Or.inr h)))
                  · rw [if_neg hm2] at hy
                    rcases List.mem_cons.mp hy with rfl | hy
                    · exact Or.inr (Or.inr (List.mem_append.mpr (Or.inl hty)))
                    · refine Or.inr (Or.inr (List.mem_append.mpr (Or.inr ?_)))
                      exact ih.1 rest2 hrest t (mem_litTextsList.mpr ⟨y, hy, hty⟩)
            · rw [mergeRunsAux_cons_not_atom (not_atom_of_not_exists hx)] at ht
              obtain ⟨y, hy, hty⟩ := mem_litTextsList.mp ht
              rcases List.mem_cons.mp hy with rfl | hy
              · rcases flushRun_litTexts l op r acc hty with h | h
                · exact Or.inl h
                · exact Or.inr (Or.inl h)
              · rcases List.mem_cons.mp hy with rfl | hy
                · exact Or.inr (Or.inr (List.mem_append.mpr (Or.inl hty)))
                · refine Or.inr (Or.inr (List.mem_append.mpr (Or.inr ?_)))
                  exact ih.1 rest2 hrest t (mem_litTextsList.mpr ⟨y, hy, hty⟩)

/-- Merging invents no literal text. -/
theorem mergeRuns_litTexts {s : List BoolExpr} {t : String}
    (h : t ∈ BoolExpr.litTextsList (mergeRuns s)) : t ∈ BoolExpr.litTextsList s :=
  (mergeRuns_litTexts_strong s.length).1 s le_rfl t h

/-- Conjunction reconstruction invents no literal text. -/
theorem mkAnd_litTexts {s : String} {ns : List BoolExpr}
    (h : s ∈ BoolExpr.litTexts (mkAnd ns)) : s ∈ BoolExpr.litTextsList ns := by
  unfold mkAnd at h
  by_cases hany : (flattenAnd ns).any BoolExpr.isFalseB = true
  · rw [if_pos hany] at h
    simp [BoolExpr.litTexts] at h
  · rw [if_neg hany] at h
    have step : ∀ y ∈ sortOps ((flattenAnd ns).filter (fun x => !(BoolExpr.isTrueB x))),
        ∀ u ∈ BoolExpr.litTexts y, u ∈ BoolExpr.litTextsList ns := by
      intro y hy u hu
      have hy2 := (sortOps_perm _).mem_iff.mp hy
      have hy3 := (List.mem_filter.mp hy2).1
      exact flattenAnd_litTexts (mem_litTextsList.mpr ⟨y, hy3, hu⟩)
    rcases hst : sortOps ((flattenAnd ns).filter (fun x => !(BoolExpr.isTrueB x))) with
      _ | ⟨x, _ | ⟨y, tl⟩⟩
    · rw [hst] at h
      simp [BoolExpr.litTexts] at h
    · rw [hst] at h step
      exact step x (List.mem_singleton.mpr rfl) s h
    · rw [hst] at h step
      obtain ⟨z, hz, hsz⟩ := mem_litTextsList.mp h
      exact step z hz s hsz

/-- Disjunction reconstruction invents no literal text. -/
theorem mkOr_litTexts {s : String} {ns : List BoolExpr}
    (h : s ∈ BoolExpr.litTexts (mkOr ns)) : s ∈ BoolExpr.litTextsList ns := by
  unfold mkOr at h
  by_cases hany : (flattenOr ns).any BoolExpr.isTrueB = true
  · rw [if_pos hany] at h
    simp [BoolExpr.litTexts] at h
  · rw [if_neg hany] at h
    have step : ∀ y ∈ mergeRuns
        (sortOps ((flattenOr ns).filter (fun x => !(BoolExpr.isFalseB x)))),
        ∀ u ∈ BoolExpr.litTexts y, u ∈ BoolExpr.litTextsList ns := by
      intro y hy u hu
      have h1 : u ∈ BoolExpr.litTextsList
          (sortOps ((flattenOr ns).filter (fun x => !(BoolExpr.isFalseB x)))) :=
        mergeRuns_litTexts (mem_litTextsList.mpr ⟨y, hy, hu⟩)
      obtain ⟨z, hz, huz⟩ := mem_litTextsList.mp h1
      have hz2 := (sortOps_perm _).mem_iff.mp hz
      have hz3 := (List.mem_filter.mp hz2).1
      exact flattenOr_litTexts (mem_litTextsList.mpr ⟨z, hz3, huz⟩)
    rcases hst : mergeRuns
        (sortOps ((flattenOr ns).filter (fun x => !(BoolExpr.isFalseB x)))) with
      _ | ⟨x, _ | ⟨y, tl⟩⟩
    · rw [hst] at h
      simp [BoolExpr.litTexts] at h
    · rw [hst] at h step
      exact step x (List.mem_singleton.mpr rfl) s h
    · rw [hst] at h step
      obtain ⟨z, hz, hsz⟩ := mem_litTextsList.mp h
      exact step z hz s hsz

/-- The boolean normalizer invents no literal text. -/
theorem normalize_litTexts : ∀ (e : BoolExpr) {s : String},
    s ∈ BoolExpr.litTexts (normalize e) → s ∈ BoolExpr.litTexts e := by
  intro e
  induction e using BoolExpr.bexprInduction with
  | hatom l op r => intro s h; exact normalizeAtom_litTexts l op r h
  | hand ops ih =>
      intro s h
      have h2 : s ∈ BoolExpr.litTextsList (normList ops) := mkAnd_litTexts h
      obtain ⟨x, hx, hsx⟩ := mem_litTextsList.mp h2
      rw [normList_eq_map] at hx
      obtain ⟨y, hy, rfl⟩ := List.mem_map.mp hx
      exact mem_litTextsList.mpr ⟨y, hy, ih y hy hsx⟩
  | hor ops ih =>
      intro s h
      have h2 : s ∈ BoolExpr.litTextsList (normList ops) := mkOr_litTexts h
      obtain ⟨x, hx, hsx⟩ := mem_litTextsList.mp h2
      rw [normList_eq_map] at hx
      obtain ⟨y, hy, rfl⟩ := List.mem_map.mp hx
      exact mem_litTextsList.mpr ⟨y, hy, ih y hy hsx⟩
  | hnot e ih =>
      intro s h
      show s ∈ BoolExpr.litTexts e
      have h2 : s ∈ BoolExpr.litTexts
          (match normalize e with | .not x => x | e2 => .not e2) := h
      cases hne : normalize e with
      | not x =>
          rw [hne] at h2
          exact ih (by rw [hne]; exact h2)
      | atom l op r => rw [hne] at h2; exact ih (by rw [hne]; exact h2)
      | and ops2 => rw [hne] at h2; exact ih (by rw [hne]; exact h2)
      | or ops2 => rw [hne] at h2; exact ih (by rw [hne]; exact h2)
      | btrue => rw [hne] at h2; simp [BoolExpr.litTexts] at h2
      | bfalse => rw [hne] at h2; simp [BoolExpr.litTexts] at h2
  | htrue => intro s h; exact h
  | hfalse => intro s h; exact h

/-- The smart projection constructor invents no literal text. -/
theorem mkProjection_litTexts : ∀ (t : Table) (fields : List String) {s : String},
    s ∈ Table.litTexts (mkProjection t fields) → s ∈ Table.litTexts t := by
  intro t
  induction t with
  | projection inner innerF ih =>
      intro fields s h
      show s ∈ Table.litTexts inner
      by_cases hsub : subsetB fields innerF = true
      · rw [show mkProjection (.projection inner innerF) fields =
          mkProjection inner fields from by simp [mkProjection, hsub]] at h
        exact ih fields h
      · rw [show mkProjection (.projection inner innerF) fields =
          .projection (.projection inner innerF) fields from by simp [mkProjection, hsub]] at h
        exact h
  | aggregation inner op fld ih =>
      intro fields s h
      by_cases hc : (decide (op = "count") && decide (fld = none) &&
          decide (fields = ["count"])) = true
      · rw [show mkProjection (.aggregation inner op fld) fields =
          .aggregation inner op fld from by simp [mkProjection, hc]] at h
        exact h
      · rw [show mkProjection (.aggregation inner op fld) fields =
          .projection (.aggregation inner op fld) fields from by simp [mkProjection, hc]] at h
        exact h
  | invocation d fn out ps => intro fields s h; exact h
  | filtered t2 f2 ih => intro fields s h; exact h
  | compute t2 fld2 e2 ih => intro fields s h; exact h
  | sort t2 fld2 a2 ih => intro fields s h; exact h
  | index t2 i2 ih => intro fields s h; exact h

/-- The smart filter constructor invents no literal text. -/
theorem mkFiltered_litTexts : ∀ (t : Table) (f : BoolExpr) {s : String},
    s ∈ Table.litTexts (mkFiltered t f) →
      s ∈ Table.litTexts t ++ BoolExpr.litTexts f := by
  intro t
  induction t with
  | projection inner fields ih =>
      intro f s h
      by_cases htr : BoolExpr.isTrueB f = true
      · rw [mkFiltered_true htr] at h
        exact List.mem_append.mpr (Or.inl h)
      · by_cases hsub : subsetB (BoolExpr.fieldNames f) (availableFields inner) = true
        · rw [show mkFiltered (.projection inner fields) f =
            .projection (mkFiltered inner f) fields from by
              simp [mkFiltered, htr, hsub]] at h
          exact ih f h
        · rw [show mkFiltered (.projection inner fields) f =
            .filtered (.projection inner fields) f from by
              simp [mkFiltered, htr, hsub]] at h
          exact h
  | invocation d fn out ps =>
      intro f s h
      by_cases htr : BoolExpr.isTrueB f = true
      · rw [mkFiltered_true htr] at h
        exact List.mem_append.mpr (Or.inl h)
      · rw [@mkFiltered_not_proj_of_not_proj (.invocation d fn out ps) f rfl
          (by simpa using htr)] at h
        exact h
  | filtered t2 f2 ih =>
      intro f s h
      by_cases htr : BoolExpr.isTrueB f = true
      · rw [mkFiltered_true htr] at h
        exact List.mem_append.mpr (Or.inl h)
      · rw [@mkFiltered_not_proj_of_not_proj (.filtered t2 f2) f rfl
          (by simpa using htr)] at h
        exact h
  | compute t2 fld2 e2 ih =>
      intro f s h
      by_cases htr : BoolExpr.isTrueB f = true
      · rw [mkFiltered_true htr] at h
        exact List.mem_append.mpr (Or.inl h)
      · rw [@mkFiltered_not_proj_of_not_proj (.compute t2 fld2 e2) f rfl
          (by simpa using htr)] at h
        exact h
  | aggregation t2 op2 fld2 ih =>
      intro f s h
      by_cases htr : BoolExpr.isTrueB f = true
      · rw [mkFiltered_true htr] at h
        exact List.mem_append.mpr (Or.inl h)
      · rw [@mkFiltered_not_proj_of_not_proj (.aggregation t2 op2 fld2) f rfl
          (by simpa using htr)] at h
        exact h
  | sort t2 fld2 a2 ih =>
      intro f s h
      by_cases htr : BoolExpr.isTrueB f = true
      · rw [mkFiltered_true htr] at h
        exact List.mem_append.mpr (Or.inl h)
      · rw [@mkFiltered_not_proj_of_not_proj (.sort t2 fld2 a2) f rfl
          (by simpa using htr)] at h
        exact h
  | index t2 i2 ih =>
      intro f s h
      by_cases htr : BoolExpr.isTrueB f = true
      · rw [mkFiltered_true htr] at h
        exact List.mem_append.mpr (Or.inl h)
      · rw [@mkFiltered_not_proj_of_not_proj (.index t2 i2) f rfl
          (by simpa using htr)] at h
        exact h

/-- The table optimizer invents no literal text. -/
theorem optimizeTable_litTexts : ∀ (t : Table) {s : String},
    s ∈ Table.litTexts (optimizeTable t) → s ∈ Table.litTexts t := by
  intro t
  induction t with
  | invocation d fn out ps => intro s h; exact h
  | filtered t f ih =>
      intro s h
      have h2 := mkFiltered_litTexts (optimizeTable t) (normalize f) h
      rcases List.mem_append.mp h2 with h3 | h3
      · exact List.mem_append.mpr (Or.inl (ih h3))
      · exact List.mem_append.mpr (Or.inr (normalize_litTexts f h3))
  | projection t fields ih =>
      intro s h
      exact ih (mkProjection_litTexts (optimizeTable t) fields h)
  | compute t fld e ih =>
      intro s h
      rcases List.mem_append.mp h with h3 | h3
      · exact List.mem_append.mpr (Or.inl (ih h3))
      · exact List.mem_append.mpr (Or.inr h3)
  | aggregation t op fld ih => intro s h; exact ih h
  | sort t fld a ih => intro s h; exact ih h
  | index t i ih =>
      intro s h
      rcases List.mem_append.mp h with h3 | h3
      · exact List.mem_append.mpr (Or.inl (ih h3))
      · exact List.mem_append.mpr (Or.inr h3)

/-- Command-level factoring invents no literal text. -/
theorem factorTable_litTexts : ∀ (t : Table) (b : Bool) {s : String},
    s ∈ Table.litTexts (factorTable t b) → s ∈ Table.litTexts t := by
  intro t
  induction t with
  | projection inner fields ih =>
      intro b s h
      cases b with
      | true => rw [factorTable_true] at h; exact h
      | false => exact ih false h
  | invocation d fn out ps => intro b s h; cases b <;> exact h
  | filtered t2 f2 ih => intro b s h; cases b <;> exact h
  | compute t2 fld2 e2 ih => intro b s h; cases b <;> exact h
  | aggregation t2 op2 fld2 ih => intro b s h; cases b <;> exact h
  | sort t2 fld2 a2 ih => intro b s h; cases b <;> exact h
  | index t2 i2 ih => intro b s h; cases b <;> exact h

/-- Monitor/projection factoring invents no literal text. -/
theorem factorStream_litTexts : ∀ (st : Stream) (b : Bool) {s : String},
    s ∈ Stream.litTexts (factorStream st b) → s ∈ Stream.litTexts st := by
  intro st b s h
  cases st with
  | monitor t sel =>
      cases t with
      | projection inner fields =>
          cases sel with
          | none =>
              have h2 : s ∈ Stream.litTexts (if b && !(List.isEmpty fields) then
                Stream.projection (.monitor inner (some fields)) fields
                else .monitor inner (some fields)) := h
              by_cases hb : (b && !(List.isEmpty fields)) = true
              · rw [if_pos hb] at h2; exact h2
              · rw [if_neg hb] at h2; exact h2
          | some sel2 => exact h
      | invocation d fn out ps => exact h
      | filtered t2 f2 => exact h
      | compute t2 fld2 e2 => exact h
      | aggregation t2 op2 fld2 => exact h
      | sort t2 fld2 a2 => exact h
      | index t2 i2 => exact h
  | projection s2 fields => exact h
  | filtered s2 f2 => exact h
  | timer b2 => exact h
  | attimer t2 => exact h

/-- The stream walk invents no literal text. -/
theorem optimizeStream_litTexts : ∀ (st : Stream) {s : String},
    s ∈ Stream.litTexts (optimizeStream st) → s ∈ Stream.litTexts st := by
  intro st
  induction st with
  | monitor t sel => intro s h; exact optimizeTable_litTexts t h
  | projection s2 fields ih => intro s h; exact ih h
  | filtered s2 f ih =>
      intro s h
      rcases List.mem_append.mp h with h3 | h3
      · exact List.mem_append.mpr (Or.inl (ih h3))
      · exact List.mem_append.mpr (Or.inr (normalize_litTexts f h3))
  | timer b => intro s h; exact h
  | attimer t => intro s h; exact h

/-- Per-statement optimization leaves the annotation map untouched. -/
theorem optimizeStatement_annotations (s : Statement) :
    (optimizeStatement s).annotations = s.annotations := by
  cases s <;> rfl

/-- Per-statement optimization invents no literal text. -/
theorem optimizeStatement_litTexts : ∀ (st : Statement) {s : String},
    s ∈ Statement.litTexts (optimizeStatement st) → s ∈ Statement.litTexts st := by
  intro st s h
  cases st with
  | rule r =>
      rcases List.mem_append.mp h with h3 | h3
      · refine List.mem_append.mpr (Or.inl ?_)
        exact optimizeStream_litTexts r.stream (factorStream_litTexts _ _ h3)
      · exact List.mem_append.mpr (Or.inr h3)
  | command c =>
      cases c with
      | mk tab acts ann =>
          cases tab with
          | none => exact h
          | some t =>
              rcases List.mem_append.mp h with h3 | h3
              · refine List.mem_append.mpr (Or.inl ?_)
                exact optimizeTable_litTexts t (factorTable_litTexts _ _ h3)
              · exact List.mem_append.mpr (Or.inr h3)
  | assignment a => exact optimizeTable_litTexts a.value h

/-- A generalization of the no-join flush: with any pending accumulator,
a non-joining successor flushes the run and restarts. -/
theorem mergeRunsAux_nojoin_acc (l : Value) (op : CompOp) (r : Value)
    (acc : List Value) (rest : List BoolExpr)
    (h : ∀ b, rest.head? = some b → runPairB (.atom l op r) b = false)
    (hmem : (CompOp.memberOp op).isSome = true) :
    mergeRunsAux l op r acc rest = flushRun l op r acc :: mergeRuns rest := by
  cases rest with
  | nil => rw [mergeRunsAux_nil]; rfl
  | cons x rest2 =>
      by_cases hx : ∃ l2 op2 r2, x = BoolExpr.atom l2 op2 r2
      · obtain ⟨l2, op2, r2, rfl⟩ := hx
        have hpair := h _ rfl
        rw [runPairB_atoms, hmem] at hpair
        have hj : ¬(l2 = l ∧ op2 = op) := by
          rintro ⟨h1, h2⟩
          simp [h1, h2] at hpair
        rw [mergeRunsAux_cons_nojoin hj]
        by_cases hm2 : (CompOp.memberOp op2).isSome = true
        · rw [if_pos hm2, mergeRuns_cons_mergeable hm2]
        · rw [if_neg hm2, mergeRuns_cons_not_mergeable (by simpa using hm2)]
      · rw [mergeRunsAux_cons_not_atom (not_atom_of_not_exists hx),
          mergeRuns_cons_not_atom (not_atom_of_not_exists hx)]

/-- A whole pending run is absorbed into the accumulator and flushed. -/
theorem mergeRunsAux_run (l : Value) (op : CompOp) (r1 : Value)
    (hmem : (CompOp.memberOp op).isSome = true) :
    ∀ (rs : List Value) (acc : List Value) (rest : List BoolExpr),
      (∀ b, rest.head? = some b → runPairB (.atom l op r1) b = false) →
      mergeRunsAux l op r1 acc (rs.map (fun r => .atom l op r) ++ rest) =
        flushRun l op r1 (acc ++ rs) :: mergeRuns rest := by
  intro rs
  induction rs with
  | nil =>
      intro acc rest h
      rw [List.map_nil, List.nil_append, List.append_nil]
      exact mergeRunsAux_nojoin_acc l op r1 acc rest h hmem
  | cons r2 rs2 ih =>
      intro acc rest h
      rw [List.map_cons, List.cons_append, mergeRunsAux_cons_join rfl rfl]
      rw [ih (acc ++ [r2]) rest h]
      rw [List.append_assoc]
      rfl

/-!
Claim theorems.  Each theorem below formalizes one claim of the
specification audit over the embedded definitions above.
-/

/--
C1 (counterexample): the claim asserts the exact error message
`program is empty after optimization`, but the source
(`lib/syntax_api.ts` line 91) throws `Program is empty after
optimization` with a capital P.  At the concrete empty program, `parse`
raises the capitalized message, which differs from the claimed one.
-/
theorem C1_counterexample :
    parse (Input.program (Program.mk [] [] [] none)) =
      Except.error "Program is empty after optimization" ∧
    "Program is empty after optimization" ≠ "program is empty after optimization" :=
  ⟨rfl, by decide⟩

/--
C1 (amended): for every input whose optimization yields an empty result,
`parse` raises the error with the exact message `Program is empty after
optimization` (capital P); for every input whose optimization is
non-empty, `parse` returns the optimized input without raising; and
every error `parse` raises is that one message, raised exactly when
optimization is empty.
-/
theorem C1_parse_empty_error (i : Input) :
    (i.optimize = none →
      parse i = Except.error "Program is empty after optimization") ∧
    (∀ o, i.optimize = some o → parse i = Except.ok o) ∧
    (∀ msg, parse i = Except.error msg →
      msg = "Program is empty after optimization" ∧ i.optimize = none) := by
  refine ⟨?_, ?_, ?_⟩
  · intro h
    unfold parse
    rw [h]
  · intro o h
    unfold parse
    rw [h]
  · intro msg h
    unfold parse at h
    cases hopt : i.optimize with
    | some o => rw [hopt] at h; cases h
    | none =>
        rw [hopt] at h
        injection h with h2
        exact ⟨h2.symm, rfl⟩

/-- C1 (witness): the empty program optimizes to an empty result and
`parse` raises the capitalized message on it. -/
theorem C1_witness :
    Input.optimize (Input.program (Program.mk [] [] [] none)) = none ∧
    parse (Input.program (Program.mk [] [] [] none)) =
      Except.error "Program is empty after optimization" :=
  ⟨rfl, (C1_parse_empty_error (Input.program (Program.mk [] [] [] none))).1 rfl⟩

/--
C2: for every typechecked program P whose optimization succeeds,
optimizing twice yields output textually identical to optimizing once:
the second optimization succeeds and pretty-prints to the same text.
-/
theorem C2_optimize_idempotent (P Q : Program) (h : optimizeProgram P = some Q) :
    ∃ R, optimizeProgram Q = some R ∧ Program.prettyprint R = Program.prettyprint Q :=
  ⟨Q, optimizeProgram_idem h, rfl⟩

/-- C2 (witness): a concrete program whose nested projection collapses;
optimizing it twice pretty-prints identically to optimizing once. -/
theorem C2_witness :
    optimizeProgram (Program.mk [] []
      [Statement.command (Command.mk
        (some (.projection (.projection
          (.invocation "com.twitter" "home_timeline" ["text", "author"] [])
          ["text", "author"]) ["text"]))
        [Action.notify] [])] none) =
      some (Program.mk [] []
        [Statement.command (Command.mk
          (some (.projection
            (.invocation "com.twitter" "home_timeline" ["text", "author"] [])
            ["text"]))
          [Action.notify] [])] none) ∧
    ∃ R, optimizeProgram (Program.mk [] []
        [Statement.command (Command.mk
          (some (.projection
            (.invocation "com.twitter" "home_timeline" ["text", "author"] [])
            ["text"]))
          [Action.notify] [])] none) = some R ∧
      Program.prettyprint R = Program.prettyprint (Program.mk [] []
        [Statement.command (Command.mk
          (some (.projection
            (.invocation "com.twitter" "home_timeline" ["text", "author"] [])
            ["text"]))
          [Action.notify] [])] none) :=
  ⟨rfl, C2_optimize_idempotent
    (Program.mk [] []
      [Statement.command (Command.mk
        (some (.projection (.projection
          (.invocation "com.twitter" "home_timeline" ["text", "author"] [])
          ["text", "author"]) ["text"]))
        [Action.notify] [])] none)
    (Program.mk [] []
      [Statement.command (Command.mk
        (some (.projection
          (.invocation "com.twitter" "home_timeline" ["text", "author"] [])
          ["text"]))
        [Action.notify] [])] none) rfl⟩

/--
C3: for every statement optimized, the optimizer leaves the
statement-level annotation map unchanged key-for-key and
value-for-value (it is attached to the optimized statement, the node
that inherits the statement role), and it never alters the
textual representation of any literal value: every literal text in the
output occurs verbatim in the input.
-/
theorem C3_annotations_literals (st : Statement) :
    (optimizeStatement st).annotations = st.annotations ∧
    ∀ s ∈ Statement.litTexts (optimizeStatement st), s ∈ Statement.litTexts st :=
  ⟨optimizeStatement_annotations st, fun _ h => optimizeStatement_litTexts st h⟩

/-- C3 (witness): a dialogue-style statement with `#[count=50]` and
`#[more=true]` annotations and the literal `1.5604449514735575e-9`;
optimization keeps the annotation map and the literal text verbatim. -/
theorem C3_witness :
    (optimizeStatement (Statement.command (Command.mk
        (some (.filtered (.invocation "com.yelp" "restaurant" ["geo", "distance"] [])
          (.atom (.varRef "distance") .le (.const "1.5604449514735575e-9" none))))
        [Action.notify] [("count", "50"), ("more", "true")]))).annotations =
      [("count", "50"), ("more", "true")] ∧
    "1.5604449514735575e-9" ∈ Statement.litTexts (Statement.command (Command.mk
        (some (.filtered (.invocation "com.yelp" "restaurant" ["geo", "distance"] [])
          (.atom (.varRef "distance") .le (.const "1.5604449514735575e-9" none))))
        [Action.notify] [("count", "50"), ("more", "true")])) :=
  ⟨(C3_annotations_literals _).1,
   (C3_annotations_literals (Statement.command (Command.mk
        (some (.filtered (.invocation "com.yelp" "restaurant" ["geo", "distance"] [])
          (.atom (.varRef "distance") .le (.const "1.5604449514735575e-9" none))))
        [Action.notify] [("count", "50"), ("more", "true")]))).2
     "1.5604449514735575e-9" (by decide)⟩

/--
C4: for every monitor of a projected table, the canonical placement of
the projection depends on the consuming action — under the synthetic
notify action with a non-trivial field set the result is
`Projection(Monitor(table, fields), fields)` with the monitor carrying
the field selector natively, and under a real named-parameter action
the result is `Monitor(table, fields)` with no wrapping projection.
-/
theorem C4_monitor_projection_placement (inner : Table) (fields : List String)
    (ann : List (String × String)) (device fn : String)
    (params : List (String × Value))
    (hnf : tNF inner = true) (hcond : projCond inner fields = true)
    (hne : fields ≠ []) :
    (optimizeRule (Rule.mk (.monitor (.projection inner fields) none)
        [Action.notify] ann)).stream =
      Stream.projection (.monitor inner (some fields)) fields ∧
    (optimizeRule (Rule.mk (.monitor (.projection inner fields) none)
        [Action.invocation device fn params] ann)).stream =
      Stream.monitor inner (some fields) := by
  have hopt : optimizeTable (.projection inner fields) = .projection inner fields := by
    show mkProjection (optimizeTable inner) fields = _
    rw [optimizeTable_eq_self hnf]
    exact mkProjection_eq_self (tNF_projection_build hnf hcond)
  have hemp : List.isEmpty fields = false := by
    cases fields with
    | nil => exact absurd rfl hne
    | cons a t => rfl
  constructor
  · show factorStream (.monitor (optimizeTable (.projection inner fields)) none)
      (allNotify [Action.notify]) = _
    rw [hopt]
    show (if true && !(List.isEmpty fields) then
        Stream.projection (.monitor inner (some fields)) fields
      else .monitor inner (some fields)) = _
    rw [if_pos (by rw [hemp]; rfl)]
  · show factorStream (.monitor (optimizeTable (.projection inner fields)) none)
      (allNotify [Action.invocation device fn params]) = _
    rw [hopt]
    show (if false && !(List.isEmpty fields) then
        Stream.projection (.monitor inner (some fields)) fields
      else .monitor inner (some fields)) = _
    rw [if_neg (by simp)]

/-- C4 (witness): the `monitor([text, author] of home_timeline)` example
under notify and under a real action. -/
theorem C4_witness :
    (optimizeRule (Rule.mk (.monitor (.projection
        (.invocation "com.twitter" "home_timeline" ["text", "author"] [])
        ["text", "author"]) none) [Action.notify] [])).stream =
      Stream.projection (.monitor
        (.invocation "com.twitter" "home_timeline" ["text", "author"] [])
        (some ["text", "author"])) ["text", "author"] ∧
    (optimizeRule (Rule.mk (.monitor (.projection
        (.invocation "com.twitter" "home_timeline" ["text", "author"] [])
        ["text", "author"]) none)
        [Action.invocation "com.twitter" "post" [("status", .varRef "text")]] [])).stream =
      Stream.monitor (.invocation "com.twitter" "home_timeline" ["text", "author"] [])
        (some ["text", "author"]) :=
  C4_monitor_projection_placement
    (.invocation "com.twitter" "home_timeline" ["text", "author"] [])
    ["text", "author"] [] "com.twitter" "post" [("status", .varRef "text")]
    rfl rfl (by decide)

/--
C5: within a flattened Or operand list, a maximal run of two or more
atoms sharing the same left operand and the same equality-class
operator merges to a single membership atom (`==` to `in_array`, `=~`
to `in_array~` via `CompOp.memberOp`) whose right operand lists the
original right operands in their original left-to-right order;
operands that do not start a run pass through unchanged; and an Or
left with exactly one operand collapses to that operand.
-/
theorem C5_disjunction_membership :
    (∀ (l : Value) (op mop : CompOp) (r1 : Value) (rs : List Value)
        (rest : List BoolExpr),
      CompOp.memberOp op = some mop → rs ≠ [] →
      (∀ b, rest.head? = some b → runPairB (.atom l op r1) b = false) →
      mergeRuns (.atom l op r1 :: rs.map (fun r => .atom l op r) ++ rest) =
        .atom l mop (.array (r1 :: rs)) :: mergeRuns rest) ∧
    (∀ (x : BoolExpr) (rest : List BoolExpr),
      (∀ b, rest.head? = some b → runPairB x b = false) →
      mergeRuns (x :: rest) = x :: mergeRuns rest) ∧
    (∀ (ns : List BoolExpr) (x : BoolExpr),
      (flattenOr ns).any BoolExpr.isTrueB = false →
      mergeRuns (sortOps ((flattenOr ns).filter (fun y => !(BoolExpr.isFalseB y)))) = [x] →
      mkOr ns = x) := by
  refine ⟨?_, ?_, ?_⟩
  · intro l op mop r1 rs rest hmem hne h
    have hsome : (CompOp.memberOp op).isSome = true := by rw [hmem]; rfl
    rw [List.cons_append]
    have heq1 := mergeRuns_cons_mergeable hsome l r1 (rs.map (fun r => .atom l op r) ++ rest)
    rw [heq1]
    rw [mergeRunsAux_run l op r1 hsome rs [] rest h]
    cases rs with
    | nil => exact absurd rfl hne
    | cons r2 rs2 =>
        rw [List.nil_append, flushRun_cons_eq]
        rw [hmem]
        rfl
  · intro x rest h
    by_cases hx : ∃ l op r, x = BoolExpr.atom l op r
    · obtain ⟨l, op, r, rfl⟩ := hx
      by_cases hm : (CompOp.memberOp op).isSome = true
      · rw [mergeRuns_cons_mergeable hm, mergeRunsAux_nojoin l op r rest h hm]
      · rw [mergeRuns_cons_not_mergeable (by simpa using hm)]
    · rw [mergeRuns_cons_not_atom (not_atom_of_not_exists hx)]
  · intro ns x hany hone
    unfold mkOr
    rw [if_neg (by simp [hany]), hone]

/-- C5 (witness): `author == "bob" || author == "charlie"` merges to
`in_array(author, ["bob", "charlie"])` preserving order, and the Or of
that single operand collapses to it. -/
theorem C5_witness :
    mergeRuns [.atom (.varRef "author") .eq (.const "bob" none),
               .atom (.varRef "author") .eq (.const "charlie" none)] =
      [.atom (.varRef "author") .inArray
        (.array [.const "bob" none, .const "charlie" none])] ∧
    mkOr [.atom (.varRef "author") .eq (.const "bob" none),
          .atom (.varRef "author") .eq (.const "charlie" none)] =
      .atom (.varRef "author") .inArray
        (.array [.const "bob" none, .const "charlie" none]) := by
  constructor
  · exact C5_disjunction_membership.1 (.varRef "author") .eq .inArray
      (.const "bob" none) [.const "charlie" none] [] rfl (by decide)
      (fun b hb => by cases hb)
  · exact C5_disjunction_membership.2.2
      [.atom (.varRef "author") .eq (.const "bob" none),
       .atom (.varRef "author") .eq (.const "charlie" none)]
      (.atom (.varRef "author") .inArray
        (.array [.const "bob" none, .const "charlie" none])) rfl (by rfl)

/--
C6: a filter above a `Projection(inner, fields)` whose referenced field
names are available on `inner` is relocated to apply directly to
`inner` and re-wrapped, producing
`Projection(Filtered(inner, filter), fields)`: the filter sits adjacent
to the table exposing the referenced columns, and the projection is the
outermost wrapper of the reconstructed tree.
-/
theorem C6_filter_relocation (inner : Table) (fields : List String) (f : BoolExpr)
    (hnf : tNF inner = true) (hproj : inner.isProjection = false)
    (hcond : projCond inner fields = true)
    (hf : isNF f = true) (hft : BoolExpr.isTrueB f = false)
    (havail : subsetB (BoolExpr.fieldNames f) (availableFields inner) = true) :
    optimizeTable (.filtered (.projection inner fields) f) =
      .projection (.filtered inner f) fields := by
  show mkFiltered (optimizeTable (.projection inner fields)) (normalize f) = _
  have hopt : optimizeTable (.projection inner fields) = .projection inner fields := by
    show mkProjection (optimizeTable inner) fields = _
    rw [optimizeTable_eq_self hnf]
    exact mkProjection_eq_self (tNF_projection_build hnf hcond)
  rw [hopt, norm_eq_self f hf]
  show (if BoolExpr.isTrueB f then Table.projection inner fields
    else if subsetB (BoolExpr.fieldNames f) (availableFields inner) then
      .projection (mkFiltered inner f) fields
    else .filtered (.projection inner fields) f) = _
  rw [if_neg (by simp [hft]), if_pos havail,
    mkFiltered_not_proj_of_not_proj hproj hft]

/-- C6 (witness): `([text] of home_timeline), text =~ "lol"` relocates
the filter under the projection. -/
theorem C6_witness :
    optimizeTable (.filtered (.projection
        (.invocation "com.twitter" "home_timeline" ["text", "author"] []) ["text"])
      (.atom (.varRef "text") .like (.const "lol" none))) =
      .projection (.filtered
        (.invocation "com.twitter" "home_timeline" ["text", "author"] [])
        (.atom (.varRef "text") .like (.const "lol" none))) ["text"] :=
  C6_filter_relocation
    (.invocation "com.twitter" "home_timeline" ["text", "author"] []) ["text"]
    (.atom (.varRef "text") .like (.const "lol" none))
    rfl rfl rfl rfl rfl rfl

/-- Subset tests compose transitively. -/
theorem subsetB_trans {a b c : List String} (h1 : subsetB a b = true)
    (h2 : subsetB b c = true) : subsetB a c = true :=
  subsetB_iff.mpr (List.Subset.trans (subsetB_iff.mp h1) (subsetB_iff.mp h2))

/-- Under the subset precondition, stacked smart projections drop the
inner layer. -/
theorem mkProjection_mkProjection {outerF innerF : List String}
    (hsub : subsetB outerF innerF = true) :
    ∀ t : Table, mkProjection (mkProjection t innerF) outerF = mkProjection t outerF := by
  intro t
  induction t with
  | projection a b ih =>
      have e1 : mkProjection (.projection a b) innerF =
          (if subsetB innerF b then mkProjection a innerF
           else .projection (.projection a b) innerF) := rfl
      rw [e1]
      by_cases h1 : subsetB innerF b = true
      · rw [if_pos h1, ih]
        have e2 : mkProjection (.projection a b) outerF =
            (if subsetB outerF b then mkProjection a outerF
             else .projection (.projection a b) outerF) := rfl
        rw [e2, if_pos (subsetB_trans hsub h1)]
      · rw [if_neg h1]
        have e3 : mkProjection (.projection (.projection a b) innerF) outerF =
            (if subsetB outerF innerF then mkProjection (.projection a b) outerF
             else .projection (.projection (.projection a b) innerF) outerF) := rfl
        rw [e3, if_pos hsub]
  | aggregation a op fld ih =>
      have e1 : mkProjection (.aggregation a op fld) innerF =
          (if decide (op = "count") && decide (fld = none) &&
              decide (innerF = ["count"]) then .aggregation a op fld
           else .projection (.aggregation a op fld) innerF) := rfl
      rw [e1]
      by_cases h1 : (decide (op = "count") && decide (fld = none) &&
          decide (innerF = ["count"])) = true
      · rw [if_pos h1]
      · rw [if_neg h1]
        have e3 : mkProjection (.projection (.aggregation a op fld) innerF) outerF =
            (if subsetB outerF innerF then mkProjection (.aggregation a op fld) outerF
             else .projection (.projection (.aggregation a op fld) innerF) outerF) := rfl
        rw [e3, if_pos hsub]
  | invocation d fn out ps =>
      have e3 : mkProjection (.projection (.invocation d fn out ps) innerF) outerF =
          (if subsetB outerF innerF then mkProjection (.invocation d fn out ps) outerF
           else .projection (.projection (.invocation d fn out ps) innerF) outerF) := rfl
      rw [show mkProjection (.invocation d fn out ps) innerF =
        .projection (.invocation d fn out ps) innerF from rfl, e3, if_pos hsub]
  | filtered a b ih =>
      have e3 : mkProjection (.projection (.filtered a b) innerF) outerF =
          (if subsetB outerF innerF then mkProjection (.filtered a b) outerF
           else .projection (.projection (.filtered a b) innerF) outerF) := rfl
      rw [show mkProjection (.filtered a b) innerF =
        .projection (.filtered a b) innerF from rfl, e3, if_pos hsub]
  | compute a b c ih =>
      have e3 : mkProjection (.projection (.compute a b c) innerF) outerF =
          (if subsetB outerF innerF then mkProjection (.compute a b c) outerF
           else .projection (.projection (.compute a b c) innerF) outerF) := rfl
      rw [show mkProjection (.compute a b c) innerF =
        .projection (.compute a b c) innerF from rfl, e3, if_pos hsub]
  | sort a b c ih =>
      have e3 : mkProjection (.projection (.sort a b c) innerF) outerF =
          (if subsetB outerF innerF then mkProjection (.sort a b c) outerF
           else .projection (.projection (.sort a b c) innerF) outerF) := rfl
      rw [show mkProjection (.sort a b c) innerF =
        .projection (.sort a b c) innerF from rfl, e3, if_pos hsub]
  | index a b ih =>
      have e3 : mkProjection (.projection (.index a b) innerF) outerF =
          (if subsetB outerF innerF then mkProjection (.index a b) outerF
           else .projection (.projection (.index a b) innerF) outerF) := rfl
      rw [show mkProjection (.index a b) innerF =
        .projection (.index a b) innerF from rfl, e3, if_pos hsub]

/-- The fields available on a smart projection never exceed the
requested field list. -/
theorem availableFields_mkProjection : ∀ (t : Table) (fields : List String),
    availableFields (mkProjection t fields) ⊆ fields := by
  intro t
  induction t with
  | projection a b ih =>
      intro fields
      by_cases h1 : subsetB fields b = true
      · rw [show mkProjection (.projection a b) fields = mkProjection a fields from by
          simp [mkProjection, h1]]
        exact ih fields
      · rw [show mkProjection (.projection a b) fields =
          .projection (.projection a b) fields from by simp [mkProjection, h1]]
        exact fun x hx => hx
  | aggregation a op fld ih =>
      intro fields
      by_cases h1 : (decide (op = "count") && decide (fld = none) &&
          decide (fields = ["count"])) = true
      · rw [show mkProjection (.aggregation a op fld) fields =
          .aggregation a op fld from by simp only [mkProjection, if_pos h1]]
        simp only [Bool.and_eq_true, decide_eq_true_eq] at h1
        obtain ⟨⟨hop, hfld⟩, hfields⟩ := h1
        subst hop; subst hfld; subst hfields
        exact fun x hx => hx
      · rw [show mkProjection (.aggregation a op fld) fields =
          .projection (.aggregation a op fld) fields from by
            simp only [mkProjection, if_neg h1]]
        exact fun x hx => hx
  | invocation d fn out ps => intro fields x hx; exact hx
  | filtered a b ih => intro fields x hx; exact hx
  | compute a b c ih => intro fields x hx; exact hx
  | sort a b c ih => intro fields x hx; exact hx
  | index a b ih => intro fields x hx; exact hx

/--
C7: a nested projection `Projection(Projection(inner, innerFields),
outerFields)` with `outerFields ⊆ innerFields` drops the inner layer,
optimizing exactly like `Projection(inner, outerFields)`; the merge
fires only under the subset precondition (without it both layers are
kept); and no field outside the outer field list is available on a
merged projection.
-/
theorem C7_projection_subset_merge (inner : Table) (innerF outerF : List String) :
    (subsetB outerF innerF = true →
      optimizeTable (.projection (.projection inner innerF) outerF) =
        optimizeTable (.projection inner outerF)) ∧
    (subsetB outerF innerF = false → tNF inner = true → projCond inner innerF = true →
      optimizeTable (.projection (.projection inner innerF) outerF) =
        .projection (.projection inner innerF) outerF) ∧
    (∀ (t : Table) (fields : List String),
      availableFields (mkProjection t fields) ⊆ fields) := by
  refine ⟨?_, ?_, availableFields_mkProjection⟩
  · intro hsub
    show mkProjection (mkProjection (optimizeTable inner) innerF) outerF =
      mkProjection (optimizeTable inner) outerF
    exact mkProjection_mkProjection hsub (optimizeTable inner)
  · intro hsub hnf hcond
    show mkProjection (mkProjection (optimizeTable inner) innerF) outerF = _
    rw [optimizeTable_eq_self hnf]
    rw [mkProjection_eq_self (tNF_projection_build hnf hcond)]
    have e3 : mkProjection (.projection inner innerF) outerF =
        (if subsetB outerF innerF then mkProjection inner outerF
         else .projection (.projection inner innerF) outerF) := rfl
    rw [e3, if_neg (by simp [hsub])]

/-- C7 (witness): `[text] of [text, author] of home_timeline` collapses
under the subset precondition, and a non-subset pair keeps both
layers. -/
theorem C7_witness :
    optimizeTable (.projection (.projection
        (.invocation "com.twitter" "home_timeline" ["text", "author"] [])
        ["text", "author"]) ["text"]) =
      optimizeTable (.projection
        (.invocation "com.twitter" "home_timeline" ["text", "author"] []) ["text"]) ∧
    optimizeTable (.projection (.projection
        (.invocation "com.twitter" "home_timeline" ["text", "author"] [])
        ["text"]) ["author"]) =
      .projection (.projection
        (.invocation "com.twitter" "home_timeline" ["text", "author"] [])
        ["text"]) ["author"] :=
  ⟨(C7_projection_subset_merge
      (.invocation "com.twitter" "home_timeline" ["text", "author"] [])
      ["text", "author"] ["text"]).1 rfl,
   (C7_projection_subset_merge
      (.invocation "com.twitter" "home_timeline" ["text", "author"] [])
      ["text"] ["author"]).2.1 rfl rfl rfl⟩

/--
C8: an atom whose operands are syntactically identical under a
reflexive operator (`==`, `>=`, `<=`) normalizes to True; an atom whose
two operands are literal constants and whose comparison evaluates to
true normalizes to True; and a filter normalizing to True is eliminated
from the table.
-/
theorem C8_tautology_elimination :
    (∀ (v : Value) (op : CompOp), op.isReflexiveTrue = true →
      normalize (.atom v op v) = .btrue) ∧
    (∀ (l r : Value) (op : CompOp), l.isConst = true → r.isConst = true →
      evalComp l op r = some true → normalize (.atom l op r) = .btrue) ∧
    (∀ (t : Table) (f : BoolExpr), normalize f = .btrue →
      optimizeTable (.filtered t f) = optimizeTable t) := by
  refine ⟨?_, ?_, ?_⟩
  · intro v op h
    show normalizeAtom v op v = _
    unfold normalizeAtom
    rw [if_pos (by simp [h])]
  · intro l r op hl hr hev
    show normalizeAtom l op r = _
    unfold normalizeAtom
    by_cases h1 : (op.isReflexiveTrue && decide (l = r)) = true
    · rw [if_pos h1]
    · rw [if_neg h1, if_pos (by rw [hl, hr]; rfl), hev]
  · intro t f h
    show mkFiltered (optimizeTable t) (normalize f) = _
    rw [h]
    exact mkFiltered_true rfl

/-- C8 (witness): `1 == 1`, `1 >= 1` and `geo == geo` all normalize to
True, `1 <= 2` constant-folds to True, and `filter 1 == 1` disappears
from a table. -/
theorem C8_witness :
    normalize (.atom (.const "1" (some 1)) .eq (.const "1" (some 1))) = .btrue ∧
    normalize (.atom (.const "1" (some 1)) .ge (.const "1" (some 1))) = .btrue ∧
    normalize (.atom (.varRef "geo") .eq (.varRef "geo")) = .btrue ∧
    normalize (.atom (.const "1" (some 1)) .le (.const "2" (some 2))) = .btrue ∧
    optimizeTable (.filtered
        (.invocation "org.schema" "restaurant" ["geo", "name"] [])
        (.atom (.const "1" (some 1)) .eq (.const "1" (some 1)))) =
      .invocation "org.schema" "restaurant" ["geo", "name"] [] :=
  ⟨C8_tautology_elimination.1 (.const "1" (some 1)) .eq rfl,
   C8_tautology_elimination.1 (.const "1" (some 1)) .ge rfl,
   C8_tautology_elimination.1 (.varRef "geo") .eq rfl,
   C8_tautology_elimination.2.1 (.const "1" (some 1)) (.const "2" (some 2)) .le
     rfl rfl (by decide),
   C8_tautology_elimination.2.2
     (.invocation "org.schema" "restaurant" ["geo", "name"] [])
     (.atom (.const "1" (some 1)) .eq (.const "1" (some 1)))
     (C8_tautology_elimination.1 (.const "1" (some 1)) .eq rfl)⟩

/--
C9: an ordering-comparison atom with a literal/contextual constant on
the left and a non-trivial computed expression on the right is swapped,
flipping the operator (`>=` becomes `<=`, `>` becomes `<`), so the
non-trivial expression ends on the left; an atom already in that
orientation is left as-is.
-/
theorem C9_comparison_canonicalization :
    (∀ (t : String) (n : Option Int) (fn : String) (args : List Value) (op : CompOp),
      op.isOrdering = true →
      normalize (.atom (.const t n) op (.computed fn args)) =
        .atom (.computed fn args) op.flipOp (.const t n)) ∧
    (∀ (t : String) (n : Option Int) (fn : String) (args : List Value) (op : CompOp),
      op.isOrdering = true →
      normalize (.atom (.computed fn args) op (.const t n)) =
        .atom (.computed fn args) op (.const t n)) := by
  constructor
  · intro t n fn args op h
    show normalizeAtom (.const t n) op (.computed fn args) = _
    unfold normalizeAtom
    rw [if_neg (by simp), if_neg (by simp [Value.isConst]), if_pos (by simp [h, Value.isConst, Value.isComputed])]
  · intro t n fn args op h
    show normalizeAtom (.computed fn args) op (.const t n) = _
    unfold normalizeAtom
    rw [if_neg (by simp), if_neg (by simp [Value.isConst]),
      if_neg (by simp [Value.isConst])]

/-- C9 (witness): `500mi >= distance(geo, loc)` becomes
`distance(geo, loc) <= 500mi`, and the latter is left as-is. -/
theorem C9_witness :
    normalize (.atom (.const "500mi" (some 500)) .ge
        (.computed "distance" [.varRef "geo", .varRef "loc"])) =
      .atom (.computed "distance" [.varRef "geo", .varRef "loc"]) .le
        (.const "500mi" (some 500)) ∧
    normalize (.atom (.computed "distance" [.varRef "geo", .varRef "loc"]) .le
        (.const "500mi" (some 500))) =
      .atom (.computed "distance" [.varRef "geo", .varRef "loc"]) .le
        (.const "500mi" (some 500)) :=
  ⟨C9_comparison_canonicalization.1 "500mi" (some 500) "distance"
     [.varRef "geo", .varRef "loc"] .ge rfl,
   C9_comparison_canonicalization.2 "500mi" (some 500) "distance"
     [.varRef "geo", .varRef "loc"] .le rfl⟩

/--
C10: the base `Input.optimize` is the identity (it returns the receiver
and never null) and only `Program` overrides it; hence for every parsed
non-Program input (Library, PermissionRule) `parse` returns the input
unchanged, and the `Program is empty after optimization` error is
unreachable for those inputs.
-/
theorem C10_base_optimize_identity :
    (∀ i : Input, i.isProgram = false → i.optimize = some i) ∧
    (∀ cs ds : List String, parse (.library cs ds) = Except.ok (.library cs ds)) ∧
    (∀ (pr : BoolExpr) (q a : String),
      parse (.permissionRule pr q a) = Except.ok (.permissionRule pr q a)) ∧
    (∀ i : Input, i.isProgram = false → ∀ msg, parse i ≠ Except.error msg) := by
  refine ⟨?_, ?_, ?_, ?_⟩
  · intro i h
    cases i with
    | program p => simp [Input.isProgram] at h
    | library cs ds => rfl
    | permissionRule pr q a => rfl
  · intro cs ds; rfl
  · intro pr q a; rfl
  · intro i h msg
    cases i with
    | program p => simp [Input.isProgram] at h
    | library cs ds => intro hc; cases hc
    | permissionRule pr q a => intro hc; cases hc

/-- C10 (witness): a concrete library and a concrete permission rule
pass through `parse` unchanged. -/
theorem C10_witness :
    Input.optimize (.library ["com.twitter"] ["main"]) =
      some (.library ["com.twitter"] ["main"]) ∧
    parse (.library ["com.twitter"] ["main"]) =
      Except.ok (.library ["com.twitter"] ["main"]) ∧
    parse (.permissionRule .btrue "q" "a") ≠
      Except.error "Program is empty after optimization" :=
  ⟨(C10_base_optimize_identity.1 (.library ["com.twitter"] ["main"]) rfl),
   C10_base_optimize_identity.2.1 ["com.twitter"] ["main"],
   C10_base_optimize_identity.2.2.2 (.permissionRule .btrue "q" "a") rfl
     "Program is empty after optimization"⟩

end ThingTalk
